import Mathlib

/-!
Verification development for the OneRepo static Kodi-repository pipeline,
a shallow embedding of `generate_pipiline.py` (the three-stage pipeline:
zip ingestion, `addons.xml` aggregation, bottom-up `index.html` synthesis)
and `generate_zip.py` (the legacy single-stage variant).

File systems are modelled as finite trees of named files and directories,
file contents as an inductive datatype, XML documents as element trees, and
the pipeline stages as (fallibly) state-transforming functions over trees.
-/

namespace OneRepo

/-! ## Python string helpers

`str.lower` is modelled by `String.toLower` (ASCII case folding, which is
what the repository exercises).  `pathlib.PurePath.suffix` / `.stem` and
`os.path.splitext` are modelled character-exactly for bare file names
(names without a path separator, which is what both scripts feed them). -/

/-- ASCII lowercasing of one character (`str.lower` on the repository's
ASCII names). -/
def charLower (c : Char) : Char :=
  if 65 ≤ c.toNat ∧ c.toNat ≤ 90 then Char.ofNat (c.toNat + 32) else c

/-- `str.lower`. -/
def pyLower (s : String) : String := String.mk (s.data.map charLower)

/-- `str.startswith` (also `pathlib` name prefix tests). -/
def strStartsWith (s pre : String) : Bool := pre.data.isPrefixOf s.data

/-- `str.endswith`. -/
def strEndsWith (s post : String) : Bool := post.data.isSuffixOf s.data

def isSpaceChar (c : Char) : Bool :=
  c == ' ' || c == '\t' || c == '\n' || c == '\r'

/-- `str.strip()`: whitespace removed from both ends. -/
def pyStrip (s : String) : String :=
  String.mk (((s.data.dropWhile isSpaceChar).reverse.dropWhile isSpaceChar).reverse)

/-- `str.split(sep)` on a single separator character (`""` gives `[""]`). -/
def splitChars (sep : Char) (cs : List Char) : List (List Char) :=
  cs.foldr
    (fun c acc =>
      if c == sep then [] :: acc
      else
        match acc with
        | g :: gs => (c :: g) :: gs
        | [] => [[c]])
    [[]]

/-- Python string comparison (lexicographic on code points), as a boolean
`≤`. -/
def charsLe : List Char → List Char → Bool
  | [], _ => true
  | _ :: _, [] => false
  | a :: ra, b :: rb => a.toNat < b.toNat || (a.toNat == b.toNat && charsLe ra rb)

def strLe (a b : String) : Bool := charsLe a.data b.data

/-- Index, counted from the end of the list, of the last `'.'` of a name
(`none` when the name has no dot).  `n.data.reverse.findIdx? (· == '.')`. -/
def lastDotFromEnd (cs : List Char) : Option Nat :=
  cs.reverse.findIdx? (· == '.')

/-- Python `pathlib.PurePath(name).suffix` for a bare file name:
the substring from the last dot, provided that dot is neither the leading
character nor the final character; otherwise the empty string. -/
def pySuffix (n : String) : String :=
  match lastDotFromEnd n.data with
  | none => ""
  | some j =>
    let i := n.length - 1 - j
    if 0 < i ∧ i < n.length - 1 then String.mk (n.data.drop i) else ""

/-- Python `pathlib.PurePath(name).stem`: the name with `pySuffix` removed. -/
def pyStem (n : String) : String :=
  String.mk (n.data.take (n.length - (pySuffix n).length))

/-- Python `os.path.splitext(name)[0]` for a bare file name: everything
before the last dot, unless every character before that dot is itself a dot
(leading dots carry no extension), in which case the whole name. -/
def splitextStem (n : String) : String :=
  match lastDotFromEnd n.data with
  | none => n
  | some j =>
    let dotIdx := n.length - 1 - j
    if (n.data.take dotIdx).any (fun c => c != '.') then
      String.mk (n.data.take dotIdx)
    else n

/-! ## XML element trees

`xml.etree.ElementTree` elements: a tag, an ordered attribute list, optional
text, a list of children, and an optional tail (text following the element's
closing tag inside its parent). -/

inductive XmlElem where
  | mk (tag : String) (attrib : List (String × String)) (text : Option String)
       (children : List XmlElem) (tail : Option String)
deriving Repr

def XmlElem.tag : XmlElem → String
  | .mk t _ _ _ _ => t

def XmlElem.attrib : XmlElem → List (String × String)
  | .mk _ a _ _ _ => a

def XmlElem.text : XmlElem → Option String
  | .mk _ _ x _ _ => x

def XmlElem.children : XmlElem → List XmlElem
  | .mk _ _ _ c _ => c

def XmlElem.tail : XmlElem → Option String
  | .mk _ _ _ _ x => x

/-! ## File contents and directory trees

A file's content is raw bytes (modelled as a string), an XML document
(standing for bytes that `ElementTree` parses to exactly that element), or a
zip archive (a list of named entries, each with its own content).  A
directory tree node carries its regular files and its subdirectories; list
order models the on-disk enumeration order of `iterdir`/`namelist`. -/

inductive FileData where
  | bytes (s : String)
  | xmlDoc (root : XmlElem)
  | zip (entries : List (String × FileData))
deriving Repr

inductive FsTree where
  | node (files : List (String × FileData)) (dirs : List (String × FsTree))
deriving Repr

def FsTree.files : FsTree → List (String × FileData)
  | .node fs _ => fs

def FsTree.dirs : FsTree → List (String × FsTree)
  | .node _ ds => ds

/-- `pasta_tem_zip`: the `rglob("*.zip")` filename test.  `rglob` matches an
entry (file or directory) whose name literally ends in `".zip"`; the extra
`suffix.lower() == ".zip"` check additionally rejects names like `".zip"`
whose suffix is empty. -/
def isZipEntryName (n : String) : Bool :=
  strEndsWith n ".zip" && pyLower (pySuffix n) == ".zip"

mutual

/-- `pasta_tem_zip(pasta)`: some entry matching `*.zip` (with a `.zip`
suffix) exists anywhere strictly below `pasta`. -/
def pasta_tem_zip : FsTree → Bool
  | .node fs ds => fs.any (fun p => isZipEntryName p.1) || temZipDirs ds

def temZipDirs : List (String × FsTree) → Bool
  | [] => false
  | (n, sub) :: rest => isZipEntryName n || pasta_tem_zip sub || temZipDirs rest

end

/-! ## MD5 (`hashlib.md5(...).hexdigest()`)

A byte-level implementation of MD5 over `List Nat` (one `Nat` per byte),
with 32-bit words as `Nat` reduced modulo `2 ^ 32`, so that concrete
digests evaluate inside the kernel. -/

def m32 : Nat := 4294967296

/-- 32-bit bitwise complement (arguments are kept below `2 ^ 32`). -/
def not32 (x : Nat) : Nat := 4294967295 - x

/-- 32-bit left rotation. -/
def rotl32 (x s : Nat) : Nat := ((x <<< s) % m32) ||| (x >>> (32 - s))

/-- The 64 MD5 sine-derived constants. -/
def md5K : List Nat :=
  [0xd76aa478, 0xe8c7b756, 0x242070db, 0xc1bdceee,
   0xf57c0faf, 0x4787c62a, 0xa8304613, 0xfd469501,
   0x698098d8, 0x8b44f7af, 0xffff5bb1, 0x895cd7be,
   0x6b901122, 0xfd987193, 0xa679438e, 0x49b40821,
   0xf61e2562, 0xc040b340, 0x265e5a51, 0xe9b6c7aa,
   0xd62f105d, 0x02441453, 0xd8a1e681, 0xe7d3fbc8,
   0x21e1cde6, 0xc33707d6, 0xf4d50d87, 0x455a14ed,
   0xa9e3e905, 0xfcefa3f8, 0x676f02d9, 0x8d2a4c8a,
   0xfffa3942, 0x8771f681, 0x6d9d6122, 0xfde5380c,
   0xa4beea44, 0x4bdecfa9, 0xf6bb4b60, 0xbebfbc70,
   0x289b7ec6, 0xeaa127fa, 0xd4ef3085, 0x04881d05,
   0xd9d4d039, 0xe6db99e5, 0x1fa27cf8, 0xc4ac5665,
   0xf4292244, 0x432aff97, 0xab9423a7, 0xfc93a039,
   0x655b59c3, 0x8f0ccc92, 0xffeff47d, 0x85845dd1,
   0x6fa87e4f, 0xfe2ce6e0, 0xa3014314, 0x4e0811a1,
   0xf7537e82, 0xbd3af235, 0x2ad7d2bb, 0xeb86d391]

/-- The 64 MD5 per-round left-rotation amounts. -/
def md5S : List Nat :=
  [7, 12, 17, 22, 7, 12, 17, 22, 7, 12, 17, 22, 7, 12, 17, 22,
   5, 9, 14, 20, 5, 9, 14, 20, 5, 9, 14, 20, 5, 9, 14, 20,
   4, 11, 16, 23, 4, 11, 16, 23, 4, 11, 16, 23, 4, 11, 16, 23,
   6, 10, 15, 21, 6, 10, 15, 21, 6, 10, 15, 21, 6, 10, 15, 21]

/-- One MD5 round: state `(a, b, c, d)`, round index `i`, message block `M`. -/
def md5Round (M : List Nat) (st : Nat × Nat × Nat × Nat) (i : Nat) :
    Nat × Nat × Nat × Nat :=
  let (a, b, c, d) := st
  let f :=
    if i < 16 then (b &&& c) ||| (not32 b &&& d)
    else if i < 32 then (d &&& b) ||| (not32 d &&& c)
    else if i < 48 then b ^^^ c ^^^ d
    else c ^^^ (b ||| not32 d)
  let g :=
    if i < 16 then i
    else if i < 32 then (5 * i + 1) % 16
    else if i < 48 then (3 * i + 5) % 16
    else (7 * i) % 16
  let f' := (f + a + md5K.getD i 0 + M.getD g 0) % m32
  (d, (b + rotl32 f' (md5S.getD i 0)) % m32, b, c)

/-- Process one 16-word block, updating the running hash values. -/
def md5Block (h : Nat × Nat × Nat × Nat) (M : List Nat) : Nat × Nat × Nat × Nat :=
  let (h0, h1, h2, h3) := h
  let (a, b, c, d) := (List.range 64).foldl (md5Round M) (h0, h1, h2, h3)
  ((h0 + a) % m32, (h1 + b) % m32, (h2 + c) % m32, (h3 + d) % m32)

/-- Little-endian packing of bytes into 32-bit words (the byte count is a
multiple of 4 after MD5 padding). -/
def bytesToWords : List Nat → List Nat
  | b0 :: b1 :: b2 :: b3 :: rest =>
      (b0 + 256 * b1 + 65536 * b2 + 16777216 * b3) :: bytesToWords rest
  | _ => []

/-- Grouping of words into 16-word blocks. -/
def wordsToBlocks : List Nat → List (List Nat)
  | w0 :: w1 :: w2 :: w3 :: w4 :: w5 :: w6 :: w7 ::
    w8 :: w9 :: w10 :: w11 :: w12 :: w13 :: w14 :: w15 :: rest =>
      [w0, w1, w2, w3, w4, w5, w6, w7, w8, w9, w10, w11, w12, w13, w14, w15] ::
        wordsToBlocks rest
  | _ => []

/-- MD5 padding: `0x80`, zero bytes to 56 mod 64, then the bit length as
eight little-endian bytes. -/
def md5Pad (msg : List Nat) : List Nat :=
  let len := msg.length
  let zeros := (120 - (len + 1) % 64) % 64
  let bitLen := (8 * len) % (2 ^ 64)
  msg ++ 0x80 :: List.replicate zeros 0 ++
    [bitLen % 256, bitLen / 256 % 256, bitLen / 65536 % 256,
     bitLen / 16777216 % 256, bitLen / 4294967296 % 256,
     bitLen / 1099511627776 % 256, bitLen / 281474976710656 % 256,
     bitLen / 72057594037927936 % 256]

/-- Little-endian bytes of a 32-bit word. -/
def wordLEBytes (w : Nat) : List Nat :=
  [w % 256, w / 256 % 256, w / 65536 % 256, w / 16777216 % 256]

def hexDigitChar (n : Nat) : Char := "0123456789abcdef".data.getD n '?'

/-- Lowercase hexadecimal rendering of a byte. -/
def byteHex (b : Nat) : List Char := [hexDigitChar (b / 16), hexDigitChar (b % 16)]

/-- `hashlib.md5(bs).hexdigest()`: the lowercase-hex MD5 digest of a byte
sequence. -/
def md5HexBytes (bs : List Nat) : String :=
  let (h0, h1, h2, h3) :=
    (wordsToBlocks (bytesToWords (md5Pad bs))).foldl md5Block
      (0x67452301, 0xefcdab89, 0x98badcfe, 0x10325476)
  String.mk
    ((wordLEBytes h0 ++ wordLEBytes h1 ++ wordLEBytes h2 ++ wordLEBytes h3).foldr
      (fun b acc => byteHex b ++ acc) [])

/-- UTF-8 encoding of one character. -/
def utf8Char (c : Char) : List Nat :=
  let n := c.toNat
  if n < 128 then [n]
  else if n < 2048 then [192 + n / 64, 128 + n % 64]
  else if n < 65536 then [224 + n / 4096, 128 + n / 64 % 64, 128 + n % 64]
  else [240 + n / 262144, 128 + n / 4096 % 64, 128 + n / 64 % 64, 128 + n % 64]

/-- UTF-8 bytes of a string (the bytes Python reads from a text file written
with UTF-8 encoding). -/
def utf8Bytes (s : String) : List Nat :=
  s.data.foldr (fun c acc => utf8Char c ++ acc) []

/-- MD5 hexdigest of a string's UTF-8 bytes. -/
def md5Hex (s : String) : String := md5HexBytes (utf8Bytes s)

/-- Sanity: the RFC 1321 test vectors for the empty string and `"abc"`. -/
theorem md5_test_vectors :
    md5Hex "" = "d41d8cd98f00b204e9800998ecf8427e" ∧
    md5Hex "abc" = "900150983cd24fb0d6963f7d28e17f72" := by
  constructor <;> rfl

/-! ## Elementary file-list and directory-list operations -/

/-- Content of the named file in a directory's file list. -/
def lookupFile (fs : List (String × FileData)) (n : String) : Option FileData :=
  (fs.find? (fun p => p.1 == n)).map Prod.snd

/-- Write a file: overwrite the entry of that name in place when present
(file names are unique on a real filesystem), otherwise append a fresh
entry at the end. -/
def putFile (fs : List (String × FileData)) (n : String) (d : FileData) :
    List (String × FileData) :=
  if fs.any (fun p => p.1 == n) then
    fs.map (fun p => if p.1 == n then (n, d) else p)
  else fs ++ [(n, d)]

/-- `unlink`: remove the entry of that name (no-op when absent). -/
def removeFile (fs : List (String × FileData)) (n : String) :
    List (String × FileData) :=
  fs.filter (fun p => !(p.1 == n))

/-- The named subdirectory of a directory list. -/
def lookupDirIn (ds : List (String × FsTree)) (n : String) : Option FsTree :=
  (ds.find? (fun p => p.1 == n)).map Prod.snd

/-- Apply `f` to the named subdirectory, creating it empty first when
absent (`mkdir` semantics of `parents=True, exist_ok=True`). -/
def modifyDir : List (String × FsTree) → String → (FsTree → FsTree) →
    List (String × FsTree)
  | [], n, f => [(n, f (.node [] []))]
  | (m, t) :: rest, n, f =>
      if m == n then (m, f t) :: rest else (m, t) :: modifyDir rest n f

/-- `safe_mkdir`: ensure the directory chain `path` exists below `t`. -/
def safe_mkdir : FsTree → List String → FsTree
  | t, [] => t
  | .node fs ds, n :: rest => .node fs (modifyDir ds n (fun sub => safe_mkdir sub rest))

/-- Write file contents at a path below `t` (the final segment is the file
name); intermediate directories are created as needed. -/
def writeAtPath : FsTree → List String → FileData → FsTree
  | t, [], _ => t
  | .node fs ds, [n], d => .node (putFile fs n d) ds
  | .node fs ds, n :: rest :: more, d =>
      .node fs (modifyDir ds n (fun sub => writeAtPath sub (rest :: more) d))

/-- Navigate to the directory at `path` (empty path: the tree itself). -/
def lookupDirPath : FsTree → List String → Option FsTree
  | t, [] => some t
  | t, n :: rest =>
      match lookupDirIn t.dirs n with
      | none => none
      | some sub => lookupDirPath sub rest

/-! ## Filesystem faults and errors

Unhandled Python exceptions are modelled by `Except`: an injected fault set
lists the absolute paths (from the repository root) whose write raises an
`OSError`.  Neither script installs a handler around its writes, so a raised
write error propagates out of the stage. -/

abbrev Faults := List (List String)

inductive PipeErr where
  | writeFault (path : List String)
  | badZip (name : String)
  | badXml (name : String)
  | missing (path : List String)
  | writeTargetIsDir (path : List String)
deriving Repr, DecidableEq

/-- A checked write: raises `writeFault` when the target path is in the
fault set, otherwise stores the contents. -/
def writeFile (fl : Faults) (t : FsTree) (path : List String) (d : FileData) :
    Except PipeErr FsTree :=
  if path ∈ fl then .error (.writeFault path) else .ok (writeAtPath t path d)

/-! ## Stage 1 — `process_zip` / `etapa_processar_zips`
(`generate_pipiline.py`) -/

/-- The loop condition of both `find_addon_xml` functions:
`low == "addon.xml" or low.endswith("/addon.xml")` for `low = name.lower()`. -/
def isAddonXmlName (n : String) : Bool :=
  pyLower n == "addon.xml" || strEndsWith (pyLower n) "/addon.xml"

/-- `find_addon_xml` (pipeline): first entry name that case-insensitively
equals `addon.xml` or ends in `/addon.xml`. -/
def find_addon_xml (names : List String) : Option String :=
  names.find? isAddonXmlName

mutual

/-- All strict descendants of an element, in document order. -/
def descendants : XmlElem → List XmlElem
  | .mk _ _ _ cs _ => descendantsList cs

def descendantsList : List XmlElem → List XmlElem
  | [] => []
  | c :: rest => c :: (descendants c ++ descendantsList rest)

end

/-- `root.findall(".//tag")`: descendant elements with the given tag. -/
def findallDesc (e : XmlElem) (tag : String) : List XmlElem :=
  (descendants e).filter (fun el => el.tag == tag)

/-- `extract_asset_paths`: stripped non-empty text of every descendant
`icon`/`fanart`/`screenshot` element, grouped in that tag order. -/
def extract_asset_paths (root : XmlElem) : List String :=
  (["icon", "fanart", "screenshot"].map (fun tag =>
    (findallDesc root tag).filterMap (fun el =>
      match el.text with
      | some s => if pyStrip s == "" then none else some (pyStrip s)
      | none => none))).foldr (· ++ ·) []

/-- Strip leading slashes (`.lstrip("/")`). -/
def lstripSlashes (s : String) : String := String.mk (s.data.dropWhile (· == '/'))

/-- `pathlib` path segments: splitting on `/`, empty and `"."` components
collapse away. -/
def plSegs (p : String) : List String :=
  ((splitChars '/' p.data).map String.mk).filter (fun s => s != "" && s != ".")

def plIsAbs (p : String) : Bool := strStartsWith p "/"

/-- `PurePosixPath.as_posix()` of a path given by absoluteness and
segments (`"."` for the empty relative path). -/
def plRender (isAbs : Bool) (segs : List String) : String :=
  if isAbs then "/" ++ String.intercalate "/" segs
  else if segs.isEmpty then "." else String.intercalate "/" segs

/-- The pipeline's internal asset path:
`(Path(addon_xml_internal).parent / asset).as_posix().lstrip("/")`.
Joining with an absolute `asset` discards the base path. -/
def pipelineInternal (internal asset : String) : String :=
  lstripSlashes
    (if plIsAbs asset then plRender true (plSegs asset)
     else plRender (plIsAbs internal) ((plSegs internal).dropLast ++ plSegs asset))

/-- Truthiness of the manifest's optional `id` attribute
(`addon_id or ...` / `if addon_id`). -/
def idTruthy : Option String → Bool
  | none => false
  | some s => s != ""

/-- First value of an attribute in an element's attribute list
(`root.attrib.get(k)`). -/
def attribGet (e : XmlElem) (k : String) : Option String :=
  (e.attrib.find? (fun p => p.1 == k)).map Prod.snd

/-- Write one declared asset: resolve the internal path, and when that
exact entry name exists in the archive, extract it to the same relative
path under the package folder (asset paths are interpreted relative to the
folder, their segments normalised as by `pathlib`); a missing entry is a
warning only. -/
def writeAsset (fl : Faults) (folder internal : String)
    (entries : List (String × FileData)) (t : FsTree) (asset : String) :
    Except PipeErr FsTree :=
  let ipath := pipelineInternal internal asset
  match (entries.find? (fun p => p.1 == ipath)).map Prod.snd with
  | some d =>
      if plSegs asset = [] then
        .error (.writeTargetIsDir [folder])
      else
        let segs := folder :: plSegs asset
        let t1 := safe_mkdir t segs.dropLast
        writeFile fl t1 segs d
  | none => .ok t

def writeAssetsLoop (fl : Faults) (folder internal : String)
    (entries : List (String × FileData)) :
    FsTree → List String → Except PipeErr FsTree
  | t, [] => .ok t
  | t, a :: rest => do
      let t' ← writeAsset fl folder internal entries t a
      writeAssetsLoop fl folder internal entries t' rest

/-- `process_zip` (pipeline): inspect the named zip at the repository root,
skip it when it has no manifest entry, otherwise materialise the package
folder (manifest, assets) and move the archive into it under its canonical
name.  Exceptions (bad archive, unparseable manifest, write faults)
propagate. -/
def process_zip (fl : Faults) (t : FsTree) (zname : String) :
    Except PipeErr FsTree :=
  match lookupFile t.files zname with
  | none => .error (.missing [zname])
  | some (.bytes _) => .error (.badZip zname)
  | some (.xmlDoc _) => .error (.badZip zname)
  | some (.zip entries) =>
    match find_addon_xml (entries.map Prod.fst) with
    | none => .ok t
    | some internal =>
      match (entries.find? (fun p => p.1 == internal)).map Prod.snd with
      | none => .error (.missing [zname, internal])
      | some (.bytes _) => .error (.badXml zname)
      | some (.zip _) => .error (.badXml zname)
      | some (.xmlDoc root) => do
        let addon_id := attribGet root "id"
        let addon_version := (attribGet root "version").getD "0.0.0"
        let folder := if idTruthy addon_id then addon_id.getD "" else pyStem zname
        let t1 := safe_mkdir t [folder]
        let t2 ← writeFile fl t1 [folder, "addon.xml"] (.xmlDoc root)
        let t3 ← writeAssetsLoop fl folder internal entries t2
                   (extract_asset_paths root)
        let new_name :=
          if idTruthy addon_id then
            addon_id.getD "" ++ "-" ++ addon_version ++ ".zip"
          else zname
        let t4 := FsTree.node (removeFile t3.files zname) t3.dirs
        writeFile fl t4 [folder, new_name] (.zip entries)

def processZips (fl : Faults) : FsTree → List String → Except PipeErr FsTree
  | t, [] => .ok t
  | t, z :: rest => do
      let t' ← process_zip fl t z
      processZips fl t' rest

/-- `etapa_processar_zips`: collect the root-level files with a `.zip`
suffix, then process each in turn (no per-item exception handling). -/
def etapa_processar_zips (fl : Faults) (t : FsTree) : Except PipeErr FsTree :=
  processZips fl t
    ((t.files.filter (fun p => pyLower (pySuffix p.1) == ".zip")).map Prod.fst)

/-! ## Stage 2 — `gerar_addons_xml` / `gerar_md5` / `etapa_addons_xml` -/

def EXCLUDED_DIRS : List String := [".git", ".svn", "__pycache__", ".idea"]

/-- Python truthiness of `not x or not x.strip()` for optional text. -/
def wsOnly : Option String → Bool
  | none => true
  | some s => pyStrip s == ""

def indentStr (level : Nat) : String :=
  "\n" ++ String.intercalate "" (List.replicate level "  ")

mutual

/-- The recursive `indent` helper: two-space pretty-indentation applied
destructively to text and tails (translated as a pure transformation). -/
def indentEl (level : Nat) : XmlElem → XmlElem
  | .mk tag attrib text children tail =>
    if children.isEmpty then
      .mk tag attrib text children
        (if level != 0 && wsOnly tail then some (indentStr level) else tail)
    else
      .mk tag attrib
        (if wsOnly text then some (indentStr level ++ "  ") else text)
        (indentList (level + 1) children)
        (if wsOnly tail then some (indentStr level) else tail)

def indentList (level : Nat) : List XmlElem → List XmlElem
  | [] => []
  | c :: rest => indentEl level c :: indentList level rest

end

/-- A single-quote character, for the XML declaration. -/
def sq : String := String.singleton (Char.ofNat 39)

/-- `ElementTree.write(..., encoding="UTF-8", xml_declaration=True)`
declaration line. -/
def xmlDecl : String :=
  "<?xml version=" ++ sq ++ "1.0" ++ sq ++ " encoding=" ++ sq ++ "UTF-8" ++ sq ++ "?>\n"

def escapeCdataChar (c : Char) : List Char :=
  if c == '&' then "&amp;".data
  else if c == '<' then "&lt;".data
  else if c == '>' then "&gt;".data
  else [c]

/-- `_escape_cdata`: text escaping. -/
def escapeCdata (s : String) : String :=
  String.mk (s.data.foldr (fun c acc => escapeCdataChar c ++ acc) [])

def escapeAttribChar (c : Char) : List Char :=
  if c == '&' then "&amp;".data
  else if c == '<' then "&lt;".data
  else if c == '>' then "&gt;".data
  else if c == '"' then "&quot;".data
  else if c == '\r' then "&#13;".data
  else if c == '\n' then "&#10;".data
  else if c == '\t' then "&#09;".data
  else [c]

/-- `_escape_attrib`: attribute-value escaping. -/
def escapeAttrib (s : String) : String :=
  String.mk (s.data.foldr (fun c acc => escapeAttribChar c ++ acc) [])

/-- Truthiness of optional text when serialising (`if text:`). -/
def textTruthy : Option String → Bool
  | none => false
  | some s => s != ""

def serializeText : Option String → String
  | none => ""
  | some s => if s != "" then escapeCdata s else ""

mutual

/-- `ElementTree` XML serialisation: attributes in order, `<tag ... />` for
an element with neither text nor children, tail text after the closing
tag. -/
def serializeEl : XmlElem → String
  | .mk tag attrib text children tail =>
    let attrs := attrib.foldl
      (fun acc p => acc ++ " " ++ p.1 ++ "=\"" ++ escapeAttrib p.2 ++ "\"") ""
    let inner :=
      if textTruthy text || !children.isEmpty then
        ">" ++ serializeText text ++ serializeChildren children ++ "</" ++ tag ++ ">"
      else " />"
    "<" ++ tag ++ attrs ++ inner ++ serializeText tail

def serializeChildren : List XmlElem → String
  | [] => ""
  | c :: rest => serializeEl c ++ serializeChildren rest

end

/-- Full document bytes as written by `tree.write(..., encoding="UTF-8",
xml_declaration=True)`. -/
def serializeDoc (root : XmlElem) : String := xmlDecl ++ serializeEl root

/-- The per-package manifests collected by `gerar_addons_xml`, in `iterdir`
order: immediate subdirectories outside `EXCLUDED_DIRS` whose `addon.xml`
file parses (anything unreadable or unparseable is logged and skipped) and
whose root tag is `addon`. -/
def collectAddons (t : FsTree) : List XmlElem :=
  t.dirs.filterMap (fun p =>
    if EXCLUDED_DIRS.contains p.1 then none
    else
      match lookupFile p.2.files "addon.xml" with
      | some (.xmlDoc e) => if e.tag == "addon" then some e else none
      | some _ => none
      | none => none)

/-- `a.attrib.get("id", "").lower()`, the sort key. -/
def addonSortKey (a : XmlElem) : String := pyLower ((attribGet a "id").getD "")

def addonKeyLe (a b : XmlElem) : Bool := strLe (addonSortKey a) (addonSortKey b)

/-- The aggregate `<addons>` root: collected manifests stably sorted by
case-folded id (missing id sorting as the empty string), then indented. -/
def gerar_addons_root (t : FsTree) : XmlElem :=
  indentEl 0 (.mk "addons" [] none ((collectAddons t).mergeSort addonKeyLe) none)

/-- `gerar_addons_xml`: write the serialised aggregate to `addons.xml`. -/
def gerar_addons_xml (fl : Faults) (t : FsTree) : Except PipeErr FsTree :=
  writeFile fl t ["addons.xml"] (.bytes (serializeDoc (gerar_addons_root t)))

/-- `gerar_md5`: read back the stored `addons.xml` bytes, hash them, and
write the lowercase hex digest to `addons.xml.md5`. -/
def gerar_md5 (fl : Faults) (t : FsTree) : Except PipeErr FsTree :=
  match lookupFile t.files "addons.xml" with
  | some (.bytes s) => writeFile fl t ["addons.xml.md5"] (.bytes (md5Hex s))
  | some _ => .error (.missing ["addons.xml"])
  | none => .error (.missing ["addons.xml"])

def etapa_addons_xml (fl : Faults) (t : FsTree) : Except PipeErr FsTree := do
  let t1 ← gerar_addons_xml fl t
  gerar_md5 fl t1

/-! ## Stage 3 — version resolver and `index.html` synthesis -/

def isDigitChar (c : Char) : Bool := 48 ≤ c.toNat && c.toNat ≤ 57

/-- Maximal leading run of ASCII digits. -/
def takeDigits : List Char → List Char × List Char
  | c :: rest =>
      if isDigitChar c then
        let (ds, r) := takeDigits rest
        (c :: ds, r)
      else ([], c :: rest)
  | [] => ([], [])

def digitVal (c : Char) : Nat := c.toNat - 48

/-- Scanner for the tail of `(\d+(?:\.\d+)*)\.zip` after the first digit:
`acc` holds completed components, `cur` the digits read of the current one.
A digit after a dot forces a further component (a dot cannot simultaneously
begin `.zip`, whose next character is not a digit), so the regex engine's
greedy matching needs no backtracking here. -/
def verScan (acc : List Nat) (cur : Nat) : List Char → Option (List Nat)
  | [] => none
  | c :: rest =>
      if isDigitChar c then verScan acc (cur * 10 + digitVal c) rest
      else if c == '.' then
        match rest with
        | [] => none
        | d :: rest2 =>
            if isDigitChar d then verScan (acc ++ [cur]) (digitVal d) rest2
            else if ['z', 'i', 'p'].isPrefixOf rest then some (acc ++ [cur])
            else none
      else none

def verAfterMarker : List Char → Option (List Nat)
  | [] => none
  | c :: rest => if isDigitChar c then verScan [] (digitVal c) rest else none

/-- Leftmost `re.search` of `One\.repo-(\d+(?:\.\d+)*)\.zip`. -/
def extrairVersaoChars : List Char → List Nat
  | [] => []
  | c :: rest =>
      if "One.repo-".data.isPrefixOf (c :: rest) then
        match verAfterMarker ((c :: rest).drop 9) with
        | some v => v
        | none => extrairVersaoChars rest
      else extrairVersaoChars rest

/-- `extrair_versao(nome)`: the integer components of the leftmost
`One.repo-<dotted-digits>.zip` fragment, `[]` (the empty tuple) when there
is none. -/
def extrair_versao (nome : String) : List Nat := extrairVersaoChars nome.data

/-- Python tuple comparison on integer sequences (lexicographic, a proper
prefix is smaller). -/
def tupLt : List Nat → List Nat → Bool
  | _, [] => false
  | [], _ :: _ => true
  | a :: ra, b :: rb => a < b || (a == b && tupLt ra rb)

/-- `fnmatch` of a name against the glob `One.repo-*.zip`. -/
def matchesRepoGlob (n : String) : Bool :=
  strStartsWith n "One.repo-" && strEndsWith n ".zip" && decide (13 ≤ n.length)

mutual

/-- `raiz.rglob("One.repo-*.zip")`: root-relative paths of every entry
(file or directory, at any depth, hidden directories included) whose name
matches the glob; matches of a directory are listed before the recursive
matches below it. -/
def rglobRepoZip : FsTree → List (List String)
  | .node fs ds =>
      (fs.filter (fun p => matchesRepoGlob p.1)).map (fun p => [p.1]) ++
        ((ds.filter (fun p => matchesRepoGlob p.1)).map (fun p => [p.1]) ++
          rglobRepoZipDirs ds)

def rglobRepoZipDirs : List (String × FsTree) → List (List String)
  | [] => []
  | (n, sub) :: rest =>
      (rglobRepoZip sub).map (fun q => n :: q) ++ rglobRepoZipDirs rest

end

/-- Last path segment (`item.name`). -/
def pathName (p : List String) : String := p.getLastD ""

/-- `encontrar_repos_mais_recentes`: all scanned entries with a non-empty
parsed version whose version is the maximum (every tie kept, in scan
order). -/
def encontrar_repos_mais_recentes (raiz : FsTree) : List (List String) :=
  let encontrados := (rglobRepoZip raiz).filterMap (fun p =>
    let v := extrair_versao (pathName p)
    if v.isEmpty then none else some (v, p))
  match encontrados with
  | [] => []
  | e :: es =>
      let maior := (es.map Prod.fst).foldl
        (fun cur v => if tupLt cur v then v else cur) e.1
      (encontrados.filter (fun q => q.1 == maior)).map Prod.snd

inductive DirItem where
  | file (name : String) (d : FileData)
  | dir (name : String) (t : FsTree)

def DirItem.name : DirItem → String
  | .file n _ => n
  | .dir n _ => n

def DirItem.isFile : DirItem → Bool
  | .file _ _ => true
  | .dir _ _ => false

/-- `pasta.iterdir()`: enumeration order is OS-defined; the model fixes
files first, then subdirectories, each in stored order. -/
def iterdirItems (t : FsTree) : List DirItem :=
  t.files.map (fun p => DirItem.file p.1 p.2) ++
    t.dirs.map (fun p => DirItem.dir p.1 p.2)

/-- The listing sort key `(not x.is_dir(), x.name.lower())` as a boolean
comparison (directories first, then case-folded name). -/
def itemKeyLe (a b : DirItem) : Bool :=
  (!a.isFile && b.isFile) ||
    (a.isFile == b.isFile && strLe (pyLower a.name) (pyLower b.name))

/-- The per-entry link lines of a listing page: sorted entries, skipping
hidden names and `index.html`; a subdirectory is linked only when some
archive exists beneath it, a file only when it has a `.zip` suffix. -/
def renderEntryLines (t : FsTree) : List String :=
  ((iterdirItems t).mergeSort itemKeyLe).filterMap (fun it =>
    if strStartsWith it.name "." || it.name == "index.html" then none
    else
      match it with
      | .dir n sub =>
          if pasta_tem_zip sub then
            some ("<a href=\"./" ++ n ++ "/index.html\">" ++ n ++ "/</a>")
          else none
      | .file n _ =>
          if pyLower (pySuffix n) == ".zip" then
            some ("<a href=\"./" ++ n ++ "\">" ++ n ++ "</a>")
          else none)

def indexHeaderLines : List String :=
  ["<!DOCTYPE html>", "<html><head>", "<meta charset=\"utf-8\">",
   "<title>Directory listing</title>", "</head><body>",
   "<h1>Directory listing</h1><hr/><pre>"]

/-- The full rendered `index.html` text (the hidden latest-repo block is
appended after the closing tags, root only). -/
def renderIndex (isRoot : Bool) (t : FsTree) (repos : List (List String)) :
    String :=
  let linhas := indexHeaderLines ++
    (if !isRoot then ["<a href=\"../index.html\">..</a>"] else []) ++
    renderEntryLines t ++
    ["</pre></body></html>"] ++
    (if isRoot && !repos.isEmpty then
      ["", "<!-- REPOSITORIO KODI (FORA DO HTML) -->",
       "<div id=\"Repositorio-KODI\" style=\"display:none\"><table>"] ++
        repos.map (fun r =>
          let rel := String.intercalate "/" r
          "<tr><td><a href=\"" ++ rel ++ "\">" ++ rel ++ "</a></td></tr>") ++
        ["</table></div>"]
     else [])
  String.intercalate "\n" linhas

def removeIndexHtml (t : FsTree) : FsTree :=
  .node (removeFile t.files "index.html") t.dirs

def putIndexHtml (t : FsTree) (content : String) : FsTree :=
  .node (putFile t.files "index.html" (.bytes content)) t.dirs

/-- `gerar_ou_remover_index(pasta, raiz)`: delete the page of an
archive-less non-root directory; delete the root page when the scan finds
no latest repos; otherwise render and write.  (For a non-root directory the
source also computes the latest-repo scan, but never uses it.) -/
def gerar_ou_remover_index (isRoot : Bool) (t : FsTree) : FsTree :=
  if !isRoot && !pasta_tem_zip t then removeIndexHtml t
  else
    let repos := if isRoot then encontrar_repos_mais_recentes t else []
    if isRoot && repos.isEmpty then removeIndexHtml t
    else putIndexHtml t (renderIndex isRoot t repos)

mutual

/-- `varrer_bottom_up`: recurse into every non-hidden subdirectory, then
process the current directory. -/
def varrer_bottom_up (isRoot : Bool) : FsTree → FsTree
  | .node fs ds => gerar_ou_remover_index isRoot (.node fs (varrerSubdirs ds))

def varrerSubdirs : List (String × FsTree) → List (String × FsTree)
  | [] => []
  | (n, sub) :: rest =>
      (n, if strStartsWith n "." then sub else varrer_bottom_up false sub) ::
        varrerSubdirs rest

end

/-- `etapa_index`: bottom-up sweep from the root, then one more processing
of the root itself. -/
def etapa_index (t : FsTree) : FsTree :=
  gerar_ou_remover_index true (varrer_bottom_up true t)

/-- `main`: the three stages in sequence. -/
def mainPipeline (fl : Faults) (t : FsTree) : Except PipeErr FsTree := do
  let t1 ← etapa_processar_zips fl t
  let t2 ← etapa_addons_xml fl t1
  .ok (etapa_index t2)

/-! ## The legacy single-stage variant (`generate_zip.py`) -/

namespace GenZip

/-- `find_addon_xml` (legacy): the same loop over `namelist()` with the
same case-insensitive condition. -/
def find_addon_xml (names : List String) : Option String :=
  names.find? isAddonXmlName

/-- `extract_asset_paths` (legacy): textually identical to the pipeline
version. -/
def extract_asset_paths (root : XmlElem) : List String :=
  (["icon", "fanart", "screenshot"].map (fun tag =>
    (findallDesc root tag).filterMap (fun el =>
      match el.text with
      | some s => if pyStrip s == "" then none else some (pyStrip s)
      | none => none))).foldr (· ++ ·) []

/-- Strip trailing slashes. -/
def rstripSlashes (cs : List Char) : List Char :=
  (cs.reverse.dropWhile (· == '/')).reverse

/-- `os.path.dirname` on a POSIX path: everything before the final slash,
with trailing slashes stripped unless the head is all slashes. -/
def posixDirname (p : String) : String :=
  match p.data.reverse.findIdx? (· == '/') with
  | none => ""
  | some j =>
      let i := p.length - 1 - j
      let head := p.data.take (i + 1)
      if head.all (· == '/') then String.mk head
      else String.mk (rstripSlashes head)

/-- The legacy internal asset path:
`(f"{addon_root_dir}/{asset}" if addon_root_dir else asset).lstrip("/")`
for `addon_root_dir = os.path.dirname(addon_xml_internal)`. -/
def legacyInternal (internal asset : String) : String :=
  let dn := posixDirname internal
  lstripSlashes (if dn != "" then dn ++ "/" ++ asset else asset)

end GenZip

/-! ## Per-archive effect summaries (for comparing the two variants)

`IngestFx` describes the on-disk result of one `process_zip` call: the
package folder, the manifest, the extracted assets with their target
locations, and the canonical archive name.  Target locations are given as
(absolute?, normalised path segments): `pathlib` joining and
`os.path.join` differ only in redundant separators there, which name the
same on-disk file. -/

structure IngestFx where
  folder : String
  manifest : XmlElem
  assetWrites : List ((Bool × List String) × FileData)
  zipName : String

/-- The on-disk location of `addon_folder / asset` (pathlib) and of
`os.path.join(addon_folder, asset)` (os.path): identical after segment
normalisation; an absolute `asset` discards the folder in both. -/
def targetLoc (folder asset : String) : Bool × List String :=
  if plIsAbs asset then (true, plSegs asset)
  else (plIsAbs folder, plSegs folder ++ plSegs asset)

/-- Effect summary of the pipeline's `process_zip` on an archive given by
name and entry list (`none`: skipped, no folder created, zip untouched). -/
def process_zip_fx (zname : String) (entries : List (String × FileData)) :
    Except PipeErr (Option IngestFx) :=
  match find_addon_xml (entries.map Prod.fst) with
  | none => .ok none
  | some internal =>
    match (entries.find? (fun p => p.1 == internal)).map Prod.snd with
    | none => .error (.missing [zname, internal])
    | some (.bytes _) => .error (.badXml zname)
    | some (.zip _) => .error (.badXml zname)
    | some (.xmlDoc root) =>
      let addon_id := attribGet root "id"
      let addon_version := (attribGet root "version").getD "0.0.0"
      let folder := if idTruthy addon_id then addon_id.getD "" else pyStem zname
      let writes := (extract_asset_paths root).filterMap (fun asset =>
        match (entries.find? (fun p =>
            p.1 == pipelineInternal internal asset)).map Prod.snd with
        | some d => some (targetLoc folder asset, d)
        | none => none)
      let new_name :=
        if idTruthy addon_id then
          addon_id.getD "" ++ "-" ++ addon_version ++ ".zip"
        else zname
      .ok (some ⟨folder, root, writes, new_name⟩)

/-- Effect summary of the legacy `process_zip`: same structure, with the
legacy stem (`os.path.splitext`) and the legacy internal-path
resolution. -/
def genzip_process_zip_fx (zname : String)
    (entries : List (String × FileData)) : Except PipeErr (Option IngestFx) :=
  match GenZip.find_addon_xml (entries.map Prod.fst) with
  | none => .ok none
  | some internal =>
    match (entries.find? (fun p => p.1 == internal)).map Prod.snd with
    | none => .error (.missing [zname, internal])
    | some (.bytes _) => .error (.badXml zname)
    | some (.zip _) => .error (.badXml zname)
    | some (.xmlDoc root) =>
      let addon_id := attribGet root "id"
      let addon_version := (attribGet root "version").getD "0.0.0"
      let folder :=
        if idTruthy addon_id then addon_id.getD "" else splitextStem zname
      let writes := (GenZip.extract_asset_paths root).filterMap (fun asset =>
        match (entries.find? (fun p =>
            p.1 == GenZip.legacyInternal internal asset)).map Prod.snd with
        | some d => some (targetLoc folder asset, d)
        | none => none)
      let new_name :=
        if idTruthy addon_id then
          addon_id.getD "" ++ "-" ++ addon_version ++ ".zip"
        else zname
      .ok (some ⟨folder, root, writes, new_name⟩)

/-! ## Basic lemmas on file lists and writes -/

theorem lookupFile_map_put_self (fs : List (String × FileData)) (n : String)
    (d : FileData) :
    lookupFile (fs.map (fun p => if p.1 == n then (n, d) else p)) n =
      if fs.any (fun p => p.1 == n) then some d else none := by
  induction fs with
  | nil => rfl
  | cons p rest ih =>
      obtain ⟨m, e⟩ := p
      cases hb : (m == n) with
      | true =>
          simp only [List.map_cons, List.any_cons, hb, Bool.true_or, if_true]
          simp [lookupFile, List.find?]
      | false =>
          simp only [List.map_cons, List.any_cons, hb, Bool.false_or, if_false]
          simpa [lookupFile, List.find?, hb, -List.find?_map] using ih

theorem lookupFile_map_put_ne (fs : List (String × FileData)) {n n' : String}
    (h : n' ≠ n) (d : FileData) :
    lookupFile (fs.map (fun p => if p.1 == n then (n, d) else p)) n' =
      lookupFile fs n' := by
  have hnn : (n == n') = false := beq_eq_false_iff_ne.mpr (Ne.symm h)
  induction fs with
  | nil => rfl
  | cons p rest ih =>
      obtain ⟨m, e⟩ := p
      cases hb : (m == n) with
      | true =>
          have hm : m = n := eq_of_beq hb
          subst hm
          simp only [List.map_cons, hb, if_true]
          simpa [lookupFile, List.find?, hnn, -List.find?_map] using ih
      | false =>
          simp only [List.map_cons, hb, if_false]
          cases hb' : (m == n') with
          | true => simp [lookupFile, List.find?, hb']
          | false => simpa [lookupFile, List.find?, hb', -List.find?_map] using ih

theorem lookupFile_append_single_self (fs : List (String × FileData))
    (n : String) (d : FileData) (h : lookupFile fs n = none) :
    lookupFile (fs ++ [(n, d)]) n = some d := by
  induction fs with
  | nil => simp [lookupFile, List.find?]
  | cons p rest ih =>
      obtain ⟨m, e⟩ := p
      cases hb : (m == n) with
      | true => simp [lookupFile, List.find?, hb] at h
      | false =>
          have h' : lookupFile rest n = none := by
            simpa [lookupFile, List.find?, hb] using h
          simpa [lookupFile, List.find?, hb] using ih h'

theorem lookupFile_append_single_ne (fs : List (String × FileData))
    {n n' : String} (h : n' ≠ n) (d : FileData) :
    lookupFile (fs ++ [(n, d)]) n' = lookupFile fs n' := by
  have hnn : (n == n') = false := beq_eq_false_iff_ne.mpr (Ne.symm h)
  induction fs with
  | nil => simp [lookupFile, List.find?, hnn]
  | cons p rest ih =>
      obtain ⟨m, e⟩ := p
      cases hb' : (m == n') with
      | true => simp [lookupFile, List.find?, hb']
      | false => simpa [lookupFile, List.find?, hb'] using ih

theorem any_eq_isSome_lookupFile (fs : List (String × FileData)) (n : String) :
    fs.any (fun p => p.1 == n) = (lookupFile fs n).isSome := by
  induction fs with
  | nil => rfl
  | cons p rest ih =>
      obtain ⟨m, e⟩ := p
      cases hb : (m == n) with
      | true => simp [List.any_cons, hb, lookupFile, List.find?]
      | false => simpa [List.any_cons, hb, lookupFile, List.find?] using ih

theorem lookupFile_putFile_self (fs : List (String × FileData)) (n : String)
    (d : FileData) : lookupFile (putFile fs n d) n = some d := by
  unfold putFile
  split
  · next hany => rw [lookupFile_map_put_self, if_pos hany]
  · next hany =>
      refine lookupFile_append_single_self fs n d ?_
      have := any_eq_isSome_lookupFile fs n
      cases hl : lookupFile fs n with
      | none => rfl
      | some e => rw [hl] at this; simp [this] at hany

theorem lookupFile_putFile_ne (fs : List (String × FileData)) {n n' : String}
    (h : n' ≠ n) (d : FileData) :
    lookupFile (putFile fs n d) n' = lookupFile fs n' := by
  unfold putFile
  split
  · exact lookupFile_map_put_ne fs h d
  · exact lookupFile_append_single_ne fs h d

theorem lookupFile_removeFile_self (fs : List (String × FileData))
    (n : String) : lookupFile (removeFile fs n) n = none := by
  unfold removeFile
  induction fs with
  | nil => rfl
  | cons p rest ih =>
      obtain ⟨m, e⟩ := p
      cases hb : (m == n) with
      | true => simp [List.filter, hb, -List.find?_filter, ih]
      | false =>
          simp [List.filter, lookupFile, List.find?, hb,
            -List.find?_filter, ih]

theorem lookupFile_removeFile_ne (fs : List (String × FileData))
    {n n' : String} (h : n' ≠ n) :
    lookupFile (removeFile fs n) n' = lookupFile fs n' := by
  unfold removeFile
  induction fs with
  | nil => rfl
  | cons p rest ih =>
      obtain ⟨m, e⟩ := p
      cases hb : (m == n) with
      | true =>
          have hm : m = n := eq_of_beq hb
          have hnn : (m == n') = false :=
            beq_eq_false_iff_ne.mpr (by rw [hm]; exact Ne.symm h)
          simpa [List.filter, hb, lookupFile, List.find?, hnn,
            -List.find?_filter] using ih
      | false =>
          cases hb' : (m == n') with
          | true =>
              simp [List.filter, hb, lookupFile, List.find?, hb',
                -List.find?_filter]
          | false =>
              simpa [List.filter, hb, lookupFile, List.find?, hb',
                -List.find?_filter] using ih

/-! ## C10 — the inspector takes the first matching manifest entry -/

/-- C10: when an archive's entry list contains a matching `addon.xml`
entry, both inspectors return the first such entry in entry-name order:
any earlier entries do not match, later matches are ignored.  (Both
`find_addon_xml` functions are the same loop.) -/
theorem C10_first_manifest_entry (xs ys : List String) (m : String)
    (hm : isAddonXmlName m = true)
    (hxs : ∀ x ∈ xs, isAddonXmlName x = false) :
    find_addon_xml (xs ++ m :: ys) = some m ∧
    GenZip.find_addon_xml (xs ++ m :: ys) = some m := by
  have key : (xs ++ m :: ys).find? isAddonXmlName = some m := by
    induction xs with
    | nil => simp [List.find?, hm]
    | cons x rest ih =>
        have hx := hxs x (by simp)
        simp only [List.cons_append, List.find?, hx]
        exact ih (fun y hy => hxs y (by simp [hy]))
  exact ⟨key, key⟩

/-- C10 witness: a concrete archive whose entry list holds a non-matching
entry, then two matching ones; the first match is chosen. -/
theorem C10_first_manifest_entry_witness :
    find_addon_xml ["readme.txt", "a/Addon.XML", "b/addon.xml"] =
      some "a/Addon.XML" ∧
    GenZip.find_addon_xml ["readme.txt", "a/Addon.XML", "b/addon.xml"] =
      some "a/Addon.XML" := by
  simpa using C10_first_manifest_entry ["readme.txt"] ["b/addon.xml"]
    "a/Addon.XML" (by decide) (by decide)

/-! ## C7 — archives without a manifest are skipped entirely -/

/-- C7: an archive none of whose entries matches the manifest name is
skipped in full: `process_zip` returns the state unchanged (no folder
created, no file written, the zip not moved or renamed), and processing a
zip list continues with the remaining archives. -/
theorem C7_missing_manifest_skips (fl : Faults) (t : FsTree) (z : String)
    (entries : List (String × FileData))
    (hz : lookupFile t.files z = some (.zip entries))
    (hfind : find_addon_xml (entries.map Prod.fst) = none) :
    process_zip fl t z = .ok t ∧
    ∀ rest, processZips fl t (z :: rest) = processZips fl t rest := by
  have h1 : process_zip fl t z = .ok t := by
    simp [process_zip, hz, hfind]
  refine ⟨h1, fun rest => ?_⟩
  simp only [processZips, h1]
  rfl

/-- C7 witness: a zip containing only `metadata.txt` is skipped and the
two-archive list degenerates to processing the remaining archive. -/
theorem C7_missing_manifest_skips_witness :
    process_zip [] (FsTree.node
      [("noaddon.zip", .zip [("metadata.txt", .bytes "x")])] []) "noaddon.zip"
      = .ok (FsTree.node
      [("noaddon.zip", .zip [("metadata.txt", .bytes "x")])] []) ∧
    processZips [] (FsTree.node
      [("noaddon.zip", .zip [("metadata.txt", .bytes "x")])] [])
      ["noaddon.zip", "other.zip"] =
    processZips [] (FsTree.node
      [("noaddon.zip", .zip [("metadata.txt", .bytes "x")])] [])
      ["other.zip"] := by
  have h := C7_missing_manifest_skips []
    (FsTree.node [("noaddon.zip", .zip [("metadata.txt", .bytes "x")])] [])
    "noaddon.zip" [("metadata.txt", .bytes "x")] (by rfl) (by rfl)
  exact ⟨h.1, h.2 ["other.zip"]⟩

/-! ## Shape of MD5 digests: 32 lowercase hex characters -/

theorem hexDigitChar_mem (k : Nat) (hk : k < 16) :
    hexDigitChar k ∈ "0123456789abcdef".data := by
  interval_cases k <;> decide

theorem byteHex_mem {b : Nat} (hb : b < 256) :
    ∀ c ∈ byteHex b, c ∈ "0123456789abcdef".data := by
  intro c hc
  have h1 : b / 16 < 16 := by omega
  have h2 : b % 16 < 16 := Nat.mod_lt _ (by omega)
  simp only [byteHex, List.mem_cons, List.not_mem_nil, or_false] at hc
  rcases hc with rfl | rfl
  · exact hexDigitChar_mem _ h1
  · exact hexDigitChar_mem _ h2

theorem foldr_byteHex_mem (l : List Nat) (c : Char) :
    c ∈ l.foldr (fun b acc => byteHex b ++ acc) [] ↔ ∃ b ∈ l, c ∈ byteHex b := by
  induction l with
  | nil => simp
  | cons b rest ih => simp [ih]

theorem foldr_byteHex_length (l : List Nat) :
    (l.foldr (fun b acc => byteHex b ++ acc) []).length = 2 * l.length := by
  induction l with
  | nil => simp
  | cons b rest ih =>
      have hb : (byteHex b).length = 2 := rfl
      simp only [List.foldr_cons, List.length_append, hb, ih, List.length_cons]
      omega

/-- Every digest `md5HexBytes` produces is a 32-character lowercase
hexadecimal string. -/
theorem md5HexBytes_shape (bs : List Nat) :
    (md5HexBytes bs).length = 32 ∧
      ∀ c ∈ (md5HexBytes bs).data, c ∈ "0123456789abcdef".data := by
  unfold md5HexBytes
  obtain ⟨h0, h1, h2, h3⟩ :=
    (wordsToBlocks (bytesToWords (md5Pad bs))).foldl md5Block
      (0x67452301, 0xefcdab89, 0x98badcfe, 0x10325476)
  have hlt : ∀ b ∈ wordLEBytes h0 ++ wordLEBytes h1 ++ wordLEBytes h2 ++
      wordLEBytes h3, b < 256 := by
    intro b hb
    simp only [wordLEBytes, List.cons_append, List.nil_append] at hb
    fin_cases hb <;> exact Nat.mod_lt _ (by omega)
  constructor
  · show (String.mk _).length = 32
    have := foldr_byteHex_length
      (wordLEBytes h0 ++ wordLEBytes h1 ++ wordLEBytes h2 ++ wordLEBytes h3)
    simp only [String.length, this]
    simp [wordLEBytes]
  · intro c hc
    have hc' := (foldr_byteHex_mem _ c).mp hc
    obtain ⟨b, hb, hcb⟩ := hc'
    exact byteHex_mem (hlt b hb) c hcb

/-- Successful aggregation writes the serialised aggregate to `addons.xml`
and its digest to `addons.xml.md5`, and changes nothing else. -/
theorem etapa_addons_xml_ok_shape (fl : Faults) (t s : FsTree)
    (h : etapa_addons_xml fl t = .ok s) :
    s = FsTree.node
      (putFile (putFile t.files "addons.xml"
          (.bytes (serializeDoc (gerar_addons_root t))))
        "addons.xml.md5"
        (.bytes (md5Hex (serializeDoc (gerar_addons_root t)))))
      t.dirs := by
  obtain ⟨tfs, tds⟩ := t
  by_cases h1 : ["addons.xml"] ∈ fl
  · exfalso
    simp [etapa_addons_xml, gerar_addons_xml, writeFile, h1, Bind.bind,
      Except.bind] at h
  · by_cases h2 : ["addons.xml.md5"] ∈ fl
    · exfalso
      simp [etapa_addons_xml, gerar_addons_xml, gerar_md5, writeFile,
        writeAtPath, h1, h2, Bind.bind, Except.bind, FsTree.files,
        lookupFile_putFile_self] at h
    · have hstep : etapa_addons_xml fl (.node tfs tds) = .ok (FsTree.node
          (putFile (putFile tfs "addons.xml"
              (.bytes (serializeDoc (gerar_addons_root (.node tfs tds)))))
            "addons.xml.md5"
            (.bytes (md5Hex (serializeDoc (gerar_addons_root (.node tfs tds))))))
          tds) := by
        simp [etapa_addons_xml, gerar_addons_xml, gerar_md5, writeFile,
          writeAtPath, h1, h2, Bind.bind, Except.bind, FsTree.files,
          lookupFile_putFile_self]
      rw [hstep] at h
      injection h with h
      exact h.symm

/-! ## C5 — the digest file hashes the stored manifest bytes -/

/-- C5: after the aggregation stage succeeds, `addons.xml.md5` holds
exactly the MD5 hexdigest of the bytes stored in `addons.xml` (the digest
is recomputed from the file just written), and that digest is a
32-character lowercase-hexadecimal string. -/
theorem C5_digest_matches_manifest (fl : Faults) (t s : FsTree)
    (h : etapa_addons_xml fl t = .ok s) :
    ∃ m, lookupFile s.files "addons.xml" = some (.bytes m) ∧
      lookupFile s.files "addons.xml.md5" = some (.bytes (md5Hex m)) ∧
      (md5Hex m).length = 32 ∧
      ∀ c ∈ (md5Hex m).data, c ∈ "0123456789abcdef".data := by
  obtain rfl := etapa_addons_xml_ok_shape fl t s h
  refine ⟨serializeDoc (gerar_addons_root t), ?_, ?_, ?_, ?_⟩
  · show lookupFile (putFile _ "addons.xml.md5" _) "addons.xml" = _
    rw [lookupFile_putFile_ne _ (by decide)]
    exact lookupFile_putFile_self ..
  · exact lookupFile_putFile_self ..
  · exact (md5HexBytes_shape _).1
  · exact (md5HexBytes_shape _).2

/-- C5 witness: a concrete aggregation run (empty repository root). -/
theorem C5_digest_matches_manifest_witness :
    ∃ m, lookupFile (FsTree.node
      [("addons.xml", .bytes (serializeDoc (gerar_addons_root (FsTree.node [] [])))),
       ("addons.xml.md5", .bytes (md5Hex (serializeDoc (gerar_addons_root
          (FsTree.node [] [])))))]
      []).files "addons.xml" = some (.bytes m) ∧
      lookupFile (FsTree.node
      [("addons.xml", .bytes (serializeDoc (gerar_addons_root (FsTree.node [] [])))),
       ("addons.xml.md5", .bytes (md5Hex (serializeDoc (gerar_addons_root
          (FsTree.node [] [])))))]
      []).files "addons.xml.md5" = some (.bytes (md5Hex m)) ∧
      (md5Hex m).length = 32 ∧
      ∀ c ∈ (md5Hex m).data, c ∈ "0123456789abcdef".data :=
  C5_digest_matches_manifest [] (FsTree.node [] []) _ (by rfl)

/-! ## C6 — aggregate entries are sorted by case-folded id -/

theorem charsLe_trans (a b c : List Char) (h1 : charsLe a b = true)
    (h2 : charsLe b c = true) : charsLe a c = true := by
  induction a generalizing b c with
  | nil => rfl
  | cons x ra ih =>
      cases b with
      | nil => simp [charsLe] at h1
      | cons y rb =>
          cases c with
          | nil => simp [charsLe] at h2
          | cons z rc =>
              simp only [charsLe, Bool.or_eq_true, Bool.and_eq_true,
                decide_eq_true_eq, beq_iff_eq] at h1 h2 ⊢
              rcases h1 with h1 | ⟨he1, h1⟩
              · rcases h2 with h2 | ⟨he2, h2⟩
                · exact Or.inl (Nat.lt_trans h1 h2)
                · exact Or.inl (he2 ▸ h1)
              · rcases h2 with h2 | ⟨he2, h2⟩
                · exact Or.inl (he1 ▸ h2)
                · exact Or.inr ⟨he1.trans he2, ih rb rc h1 h2⟩

theorem charsLe_total (a b : List Char) : charsLe a b || charsLe b a := by
  induction a generalizing b with
  | nil => simp [charsLe]
  | cons x ra ih =>
      cases b with
      | nil => simp [charsLe]
      | cons y rb =>
          simp only [charsLe, Bool.or_eq_true, Bool.and_eq_true,
            decide_eq_true_eq, beq_iff_eq]
          rcases Nat.lt_trichotomy x.toNat y.toNat with h | h | h
          · exact Or.inl (Or.inl h)
          · rcases Bool.or_eq_true .. |>.mp (ih rb) with hle | hle
            · exact Or.inl (Or.inr ⟨h, hle⟩)
            · exact Or.inr (Or.inr ⟨h.symm, hle⟩)
          · exact Or.inr (Or.inl h)

theorem strLe_trans (a b c : String) (h1 : strLe a b = true)
    (h2 : strLe b c = true) : strLe a c = true :=
  charsLe_trans a.data b.data c.data h1 h2

theorem strLe_total (a b : String) : strLe a b || strLe b a :=
  charsLe_total a.data b.data

theorem indentList_eq_map (l : Nat) (cs : List XmlElem) :
    indentList l cs = cs.map (indentEl l) := by
  induction cs with
  | nil => rfl
  | cons c rest ih => simp [indentList, ih]

theorem attrib_indentEl (l : Nat) (e : XmlElem) :
    (indentEl l e).attrib = e.attrib := by
  obtain ⟨tag, attrib, text, children, tail⟩ := e
  rw [indentEl]
  split <;> rfl

theorem addonSortKey_indentEl (l : Nat) (e : XmlElem) :
    addonSortKey (indentEl l e) = addonSortKey e := by
  unfold addonSortKey attribGet
  rw [attrib_indentEl]

theorem gerar_addons_root_children (t : FsTree) :
    (gerar_addons_root t).children =
      ((collectAddons t).mergeSort addonKeyLe).map (indentEl 1) := by
  unfold gerar_addons_root
  rw [indentEl]
  split
  · next hemp =>
      have : (collectAddons t).mergeSort addonKeyLe = [] := by
        simpa [List.isEmpty_iff] using hemp
      simp [XmlElem.children, this]
  · simp [XmlElem.children, indentList_eq_map]

/-- C6: in the aggregate manifest written by the aggregation stage, the
package entries appear in ascending order of their case-folded `id`
(Python string comparison), and an entry without an `id` attribute is
keyed as the empty string. -/
theorem C6_aggregate_sorted (fl : Faults) (t s : FsTree)
    (h : etapa_addons_xml fl t = .ok s) :
    lookupFile s.files "addons.xml" =
      some (.bytes (serializeDoc (gerar_addons_root t))) ∧
    (gerar_addons_root t).children.Pairwise
      (fun a b => strLe (addonSortKey a) (addonSortKey b) = true) ∧
    (∀ a : XmlElem, attribGet a "id" = none → addonSortKey a = "") := by
  obtain rfl := etapa_addons_xml_ok_shape fl t s h
  refine ⟨?_, ?_, ?_⟩
  · show lookupFile (putFile _ "addons.xml.md5" _) "addons.xml" = _
    rw [lookupFile_putFile_ne _ (by decide)]
    exact lookupFile_putFile_self ..
  · rw [gerar_addons_root_children, List.pairwise_map]
    have hs := @List.sorted_mergeSort XmlElem addonKeyLe
      (fun a b c hab hbc => strLe_trans _ _ _ hab hbc)
      (fun a b => strLe_total (addonSortKey a) (addonSortKey b))
      (collectAddons t)
    exact hs.imp (fun hab => by
      rw [addonSortKey_indentEl, addonSortKey_indentEl]; exact hab)
  · intro a ha
    simp [addonSortKey, ha]
    rfl

/-- C6 witness: two packages whose ids sort case-insensitively
(`alpha` before `Zeta`), plus one manifest without an id. -/
theorem C6_aggregate_sorted_witness :
    lookupFile (FsTree.node
      (putFile (putFile (FsTree.node []
          [("f1", FsTree.node [("addon.xml",
              .xmlDoc (.mk "addon" [("id", "Zeta")] none [] none))] []),
           ("f2", FsTree.node [("addon.xml",
              .xmlDoc (.mk "addon" [("id", "alpha")] none [] none))] [])]).files
          "addons.xml"
          (.bytes (serializeDoc (gerar_addons_root (FsTree.node []
          [("f1", FsTree.node [("addon.xml",
              .xmlDoc (.mk "addon" [("id", "Zeta")] none [] none))] []),
           ("f2", FsTree.node [("addon.xml",
              .xmlDoc (.mk "addon" [("id", "alpha")] none [] none))] [])])))))
        "addons.xml.md5"
        (.bytes (md5Hex (serializeDoc (gerar_addons_root (FsTree.node []
          [("f1", FsTree.node [("addon.xml",
              .xmlDoc (.mk "addon" [("id", "Zeta")] none [] none))] []),
           ("f2", FsTree.node [("addon.xml",
              .xmlDoc (.mk "addon" [("id", "alpha")] none [] none))] [])]))))))
      (FsTree.node []
          [("f1", FsTree.node [("addon.xml",
              .xmlDoc (.mk "addon" [("id", "Zeta")] none [] none))] []),
           ("f2", FsTree.node [("addon.xml",
              .xmlDoc (.mk "addon" [("id", "alpha")] none [] none))] [])]).dirs).files
      "addons.xml" =
      some (.bytes (serializeDoc (gerar_addons_root (FsTree.node []
          [("f1", FsTree.node [("addon.xml",
              .xmlDoc (.mk "addon" [("id", "Zeta")] none [] none))] []),
           ("f2", FsTree.node [("addon.xml",
              .xmlDoc (.mk "addon" [("id", "alpha")] none [] none))] [])])))) ∧
    (gerar_addons_root (FsTree.node []
          [("f1", FsTree.node [("addon.xml",
              .xmlDoc (.mk "addon" [("id", "Zeta")] none [] none))] []),
           ("f2", FsTree.node [("addon.xml",
              .xmlDoc (.mk "addon" [("id", "alpha")] none [] none))] [])])).children.Pairwise
      (fun a b => strLe (addonSortKey a) (addonSortKey b) = true) ∧
    (∀ a : XmlElem, attribGet a "id" = none → addonSortKey a = "") :=
  C6_aggregate_sorted [] (FsTree.node []
          [("f1", FsTree.node [("addon.xml",
              .xmlDoc (.mk "addon" [("id", "Zeta")] none [] none))] []),
           ("f2", FsTree.node [("addon.xml",
              .xmlDoc (.mk "addon" [("id", "alpha")] none [] none))] [])]) _
    (by rfl)

/-! ## C3 — latest-version selection (order lemmas for `tupLt`) -/

theorem tupLt_irrefl (v : List Nat) : tupLt v v = false := by
  induction v with
  | nil => rfl
  | cons x r ih => simp [tupLt, ih]

theorem tupLt_trans (a b c : List Nat) (h1 : tupLt a b = true)
    (h2 : tupLt b c = true) : tupLt a c = true := by
  induction a generalizing b c with
  | nil =>
      cases c with
      | nil =>
          cases b with
          | nil => exact h1
          | cons y rb => simp [tupLt] at h2
      | cons z rc => rfl
  | cons x ra ih =>
      cases b with
      | nil => simp [tupLt] at h1
      | cons y rb =>
          cases c with
          | nil => simp [tupLt] at h2
          | cons z rc =>
              simp only [tupLt, Bool.or_eq_true, Bool.and_eq_true,
                decide_eq_true_eq, beq_iff_eq] at h1 h2 ⊢
              rcases h1 with h1 | ⟨he1, h1⟩
              · rcases h2 with h2 | ⟨he2, h2⟩
                · exact Or.inl (Nat.lt_trans h1 h2)
                · exact Or.inl (he2 ▸ h1)
              · rcases h2 with h2 | ⟨he2, h2⟩
                · exact Or.inl (he1 ▸ h2)
                · exact Or.inr ⟨he1.trans he2, ih rb rc h1 h2⟩

theorem tupLt_connex (a b : List Nat) :
    tupLt a b = true ∨ a = b ∨ tupLt b a = true := by
  induction a generalizing b with
  | nil =>
      cases b with
      | nil => exact Or.inr (Or.inl rfl)
      | cons y rb => exact Or.inl rfl
  | cons x ra ih =>
      cases b with
      | nil => exact Or.inr (Or.inr rfl)
      | cons y rb =>
          rcases Nat.lt_trichotomy x y with h | h | h
          · exact Or.inl (by simp [tupLt, h])
          · subst h
            rcases ih rb with h | h | h
            · exact Or.inl (by simp [tupLt, h])
            · exact Or.inr (Or.inl (by rw [h]))
            · exact Or.inr (Or.inr (by simp [tupLt, h]))
          · exact Or.inr (Or.inr (by simp [tupLt, h]))

theorem tupLt_both_false (a b : List Nat) (h1 : tupLt a b = false)
    (h2 : tupLt b a = false) : a = b := by
  rcases tupLt_connex a b with h | h | h
  · rw [h] at h1; cases h1
  · exact h
  · rw [h] at h2; cases h2

theorem foldl_tmax_mem (l : List (List Nat)) (init : List Nat) :
    l.foldl (fun cur v => if tupLt cur v then v else cur) init = init ∨
    l.foldl (fun cur v => if tupLt cur v then v else cur) init ∈ l := by
  induction l generalizing init with
  | nil => exact Or.inl rfl
  | cons x rest ih =>
      simp only [List.foldl_cons]
      rcases ih (if tupLt init x then x else init) with h | h
      · rw [h]
        split
        · exact Or.inr (List.mem_cons_self ..)
        · exact Or.inl rfl
      · exact Or.inr (List.mem_cons_of_mem _ h)

theorem foldl_tmax_ub : ∀ (l : List (List Nat)) (init v : List Nat),
    (v = init ∨ v ∈ l) →
    tupLt (l.foldl (fun cur v => if tupLt cur v then v else cur) init) v = false
  | [], _, v, hv => by
      rcases hv with rfl | h
      · exact tupLt_irrefl v
      · cases h
  | x :: rest, init, v, hv => by
      simp only [List.foldl_cons]
      by_cases hx : tupLt init x = true
      · rw [if_pos hx]
        rcases hv with rfl | hv
        · have hMx := foldl_tmax_ub rest x x (Or.inl rfl)
          cases hM : tupLt (rest.foldl
              (fun cur v => if tupLt cur v then v else cur) x) v with
          | false => rfl
          | true =>
              have h2 := tupLt_trans _ _ _ hM hx
              rw [hMx] at h2; cases h2
        · rcases List.mem_cons.mp hv with rfl | hv
          · exact foldl_tmax_ub rest _ _ (Or.inl rfl)
          · exact foldl_tmax_ub rest x v (Or.inr hv)
      · rw [if_neg hx]
        have hx' : tupLt init x = false := by
          cases h : tupLt init x with
          | false => rfl
          | true => exact absurd h hx
        rcases hv with rfl | hv
        · exact foldl_tmax_ub rest _ _ (Or.inl rfl)
        · rcases List.mem_cons.mp hv with rfl | hv
          · have hMi := foldl_tmax_ub rest init init (Or.inl rfl)
            rcases tupLt_connex init v with h | h | h
            · rw [h] at hx'; cases hx'
            · rw [← h]; exact hMi
            · cases hM : tupLt (rest.foldl
                  (fun cur v => if tupLt cur v then v else cur) init) v with
              | false => rfl
              | true =>
                  have h2 := tupLt_trans _ _ _ hM h
                  rw [hMi] at h2; cases h2
          · exact foldl_tmax_ub rest init v (Or.inr hv)

/-- C3: the resolver keeps exactly the scanned entries whose parsed dotted
version is lexicographically maximal (all ties included); on the concrete
instances, `One.repo-1.2.1.zip` alone wins among the three versions, and a
duplicate of it in a subdirectory is selected as well. -/
theorem C3_latest_version_selection :
    (∀ raiz p, p ∈ encontrar_repos_mais_recentes raiz ↔
      (p ∈ rglobRepoZip raiz ∧ extrair_versao (pathName p) ≠ [] ∧
        ∀ q ∈ rglobRepoZip raiz, extrair_versao (pathName q) ≠ [] →
          tupLt (extrair_versao (pathName p)) (extrair_versao (pathName q))
            = false)) ∧
    extrair_versao "One.repo-1.0.0.zip" = [1, 0, 0] ∧
    extrair_versao "One.repo-1.2.0.zip" = [1, 2, 0] ∧
    extrair_versao "One.repo-1.2.1.zip" = [1, 2, 1] ∧
    encontrar_repos_mais_recentes (FsTree.node
      [("One.repo-1.0.0.zip", .bytes ""), ("One.repo-1.2.0.zip", .bytes ""),
       ("One.repo-1.2.1.zip", .bytes "")] []) = [["One.repo-1.2.1.zip"]] ∧
    encontrar_repos_mais_recentes (FsTree.node
      [("One.repo-1.0.0.zip", .bytes ""), ("One.repo-1.2.0.zip", .bytes ""),
       ("One.repo-1.2.1.zip", .bytes "")]
      [("sub", FsTree.node [("One.repo-1.2.1.zip", .bytes "")] [])]) =
      [["One.repo-1.2.1.zip"], ["sub", "One.repo-1.2.1.zip"]] := by
  refine ⟨?_, by rfl, by rfl, by rfl, by rfl, by rfl⟩
  intro raiz p
  unfold encontrar_repos_mais_recentes
  set L := rglobRepoZip raiz with hL
  set g : List String → Option (List Nat × List String) := fun q =>
    let v := extrair_versao (pathName q)
    if v.isEmpty then none else some (v, q) with hg
  have memE : ∀ v q, (v, q) ∈ L.filterMap g ↔
      (q ∈ L ∧ extrair_versao (pathName q) = v ∧ v ≠ []) := by
    intro v q
    rw [List.mem_filterMap]
    constructor
    · rintro ⟨a, ha, hga⟩
      rw [hg] at hga
      simp only at hga
      split at hga
      · cases hga
      · next hne =>
          injection hga with h1
          injection h1 with hv hq
          subst hq; subst hv
          exact ⟨ha, rfl, by simpa [List.isEmpty_iff] using hne⟩
    · rintro ⟨hq, hv, hne⟩
      refine ⟨q, hq, ?_⟩
      rw [hg]
      simp only
      rw [if_neg (by simpa [List.isEmpty_iff, hv] using hne)]
      rw [hv]
  rcases hE : L.filterMap g with _ | ⟨e, es⟩
  · simp only [hE]
    constructor
    · intro h; cases h
    · rintro ⟨hp, hv, _⟩
      exfalso
      have : (extrair_versao (pathName p), p) ∈ L.filterMap g :=
        (memE _ _).mpr ⟨hp, rfl, hv⟩
      rw [hE] at this
      cases this
  · simp only [hE]
    set maior := (es.map Prod.fst).foldl
      (fun cur v => if tupLt cur v then v else cur) e.1 with hmaior
    have hmem_eq : ∀ v q, (v, q) ∈ e :: es ↔
        (q ∈ L ∧ extrair_versao (pathName q) = v ∧ v ≠ []) := by
      intro v q; rw [← hE]; exact memE v q
    have hatt : maior = e.1 ∨ maior ∈ es.map Prod.fst :=
      foldl_tmax_mem _ _
    have hatt' : ∃ q0, (maior, q0) ∈ e :: es := by
      rcases hatt with h | h
      · exact ⟨e.2, by rw [h]; exact List.mem_cons_self ..⟩
      · rcases List.mem_map.mp h with ⟨q0, hq0, hfst⟩
        exact ⟨q0.2, by rw [← hfst]; exact List.mem_cons_of_mem _ hq0⟩
    have hub : ∀ v q, (v, q) ∈ e :: es → tupLt maior v = false := by
      intro v q hvq
      rcases List.mem_cons.mp hvq with rfl | hvq
      · exact foldl_tmax_ub _ _ _ (Or.inl rfl)
      · exact foldl_tmax_ub _ _ _ (Or.inr (List.mem_map.mpr ⟨(v, q), hvq, rfl⟩))
    constructor
    · intro hp
      rcases List.mem_map.mp hp with ⟨⟨v, q⟩, hq, hq2⟩
      have hfil := List.mem_filter.mp hq
      have hvm : v = maior := by
        have := hfil.2
        simpa [beq_iff_eq] using this
      obtain ⟨hqL, hqv, hqne⟩ := (hmem_eq v q).mp hfil.1
      dsimp at hq2
      subst hq2
      refine ⟨hqL, by rw [hqv, hvm] at *; exact hvm ▸ hqne, ?_⟩
      intro q' hq' hvq'
      have : (extrair_versao (pathName q'), q') ∈ e :: es :=
        (hmem_eq _ _).mpr ⟨hq', rfl, hvq'⟩
      have := hub _ _ this
      rw [hqv, hvm]
      exact this
    · rintro ⟨hp, hv, hmax⟩
      have hpmem : (extrair_versao (pathName p), p) ∈ e :: es :=
        (hmem_eq _ _).mpr ⟨hp, rfl, hv⟩
      have hveq : extrair_versao (pathName p) = maior := by
        obtain ⟨q0, hq0⟩ := hatt'
        obtain ⟨hq0L, hq0v, hq0ne⟩ := (hmem_eq _ _).mp hq0
        have h1 : tupLt (extrair_versao (pathName p)) maior = false := by
          have := hmax q0 hq0L (by rw [hq0v]; exact hq0ne)
          rw [hq0v] at this
          exact this
        have h2 : tupLt maior (extrair_versao (pathName p)) = false :=
          hub _ _ hpmem
        exact tupLt_both_false _ _ h1 h2
      refine List.mem_map.mpr ⟨(extrair_versao (pathName p), p), ?_, rfl⟩
      refine List.mem_filter.mpr ⟨hpmem, ?_⟩
      simpa [beq_iff_eq] using hveq

/-- C3 witness: the membership characterisation applied to the duplicate
scenario, selecting the subdirectory copy. -/
theorem C3_latest_version_selection_witness :
    ["sub", "One.repo-1.2.1.zip"] ∈ encontrar_repos_mais_recentes
      (FsTree.node
        [("One.repo-1.0.0.zip", .bytes ""), ("One.repo-1.2.0.zip", .bytes ""),
         ("One.repo-1.2.1.zip", .bytes "")]
        [("sub", FsTree.node [("One.repo-1.2.1.zip", .bytes "")] [])]) :=
  (C3_latest_version_selection.1 _ _).mpr
    ⟨by decide, by decide, by decide⟩

/-! ## C9 — the sweep visits exactly the non-hidden subdirectories -/

theorem dirs_gerar_ou_remover (isRoot : Bool) (t : FsTree) :
    (gerar_ou_remover_index isRoot t).dirs = t.dirs := by
  simp only [gerar_ou_remover_index]
  split
  · rfl
  · split <;> (split <;> rfl)

theorem dirs_varrer_bottom_up (isRoot : Bool) (t : FsTree) :
    (varrer_bottom_up isRoot t).dirs = varrerSubdirs t.dirs := by
  obtain ⟨fs, ds⟩ := t
  rw [varrer_bottom_up, dirs_gerar_ou_remover]
  rfl

theorem varrerSubdirs_eq_map (ds : List (String × FsTree)) :
    varrerSubdirs ds = ds.map (fun p =>
      (p.1, if strStartsWith p.1 "." then p.2 else varrer_bottom_up false p.2))
    := by
  induction ds with
  | nil => rfl
  | cons p rest ih =>
      obtain ⟨n, sub⟩ := p
      simp [varrerSubdirs, ih]

/-- C9: the bottom-up sweep recurses into exactly the subdirectories whose
names do not start with a dot — dot-prefixed directories (`.git`, …) keep
their entire subtree (so their listing pages are neither created nor
deleted), non-dot directories are processed even when they belong to the
excluded tooling set (`__pycache__` can receive a listing page), as the
concrete run shows: after `etapa_index`, `__pycache__` (holding `a.zip`)
has an `index.html` while `.git` (holding `b.zip`) has none. -/
theorem C9_traversal_hidden_dirs :
    (∀ (ds : List (String × FsTree)) n sub, (n, sub) ∈ ds →
      strStartsWith n "." = true → (n, sub) ∈ varrerSubdirs ds) ∧
    (∀ (ds : List (String × FsTree)) n sub, (n, sub) ∈ ds →
      strStartsWith n "." = false →
      (n, varrer_bottom_up false sub) ∈ varrerSubdirs ds) ∧
    (∀ (t : FsTree) n sub, (n, sub) ∈ t.dirs → strStartsWith n "." = true →
      (n, sub) ∈ (etapa_index t).dirs) ∧
    ((lookupDirPath (etapa_index (FsTree.node []
        [("__pycache__", FsTree.node [("a.zip", .bytes "")] []),
         (".git", FsTree.node [("b.zip", .bytes "")] [])]))
        ["__pycache__"]).map
      (fun d => (lookupFile d.files "index.html").isSome) = some true) ∧
    ((lookupDirPath (etapa_index (FsTree.node []
        [("__pycache__", FsTree.node [("a.zip", .bytes "")] []),
         (".git", FsTree.node [("b.zip", .bytes "")] [])]))
        [".git"]).map
      (fun d => (lookupFile d.files "index.html").isSome) = some false) := by
  have h1 : ∀ (ds : List (String × FsTree)) n sub, (n, sub) ∈ ds →
      strStartsWith n "." = true → (n, sub) ∈ varrerSubdirs ds := by
    intro ds n sub hmem hdot
    rw [varrerSubdirs_eq_map]
    refine List.mem_map.mpr ⟨(n, sub), hmem, ?_⟩
    simp [hdot]
  refine ⟨h1, ?_, ?_, by rfl, by rfl⟩
  · intro ds n sub hmem hdot
    rw [varrerSubdirs_eq_map]
    refine List.mem_map.mpr ⟨(n, sub), hmem, ?_⟩
    simp [hdot]
  · intro t n sub hmem hdot
    show (n, sub) ∈ (gerar_ou_remover_index true (varrer_bottom_up true t)).dirs
    rw [dirs_gerar_ou_remover, dirs_varrer_bottom_up]
    exact h1 _ _ _ hmem hdot

/-- C9 witness: the hidden `.git` subtree survives the sweep unchanged, and
a non-hidden directory is swept. -/
theorem C9_traversal_hidden_dirs_witness :
    ((".git" : String), FsTree.node [("b.zip", FileData.bytes "")] []) ∈
      varrerSubdirs [(".git", FsTree.node [("b.zip", .bytes "")] [])] ∧
    (("pkg" : String), varrer_bottom_up false
        (FsTree.node [("b.zip", FileData.bytes "")] [])) ∈
      varrerSubdirs [("pkg", FsTree.node [("b.zip", .bytes "")] [])] ∧
    ((".git" : String), FsTree.node [("b.zip", FileData.bytes "")] []) ∈
      (etapa_index (FsTree.node []
        [(".git", FsTree.node [("b.zip", .bytes "")] [])])).dirs :=
  ⟨C9_traversal_hidden_dirs.1 _ _ _ (by simp) (by decide),
   C9_traversal_hidden_dirs.2.1 _ _ _ (by simp) (by decide),
   C9_traversal_hidden_dirs.2.2.1 _ _ _ (by simp [FsTree.dirs]) (by decide)⟩

/-! ## C4 — filesystem errors during ingestion abort the whole run

`etapa_processar_zips` wraps no handler around `process_zip` (the only
`try`/`except` in the pipeline is the parse guard inside
`gerar_addons_xml`), so a write error on one archive propagates out of the
stage instead of being caught. -/

/-- C4 counterexample: with a fault injected on `pkgA/addon.xml`, ingestion
of two archives aborts with that error — it does not continue with the
second archive — although the same two archives are both processed when no
fault occurs. -/
theorem C4_counterexample :
    etapa_processar_zips [["pkgA", "addon.xml"]] (FsTree.node
      [("a.zip", .zip [("addon.xml", .xmlDoc
          (.mk "addon" [("id", "pkgA"), ("version", "1.0")] none [] none))]),
       ("b.zip", .zip [("addon.xml", .xmlDoc
          (.mk "addon" [("id", "pkgB"), ("version", "1.0")] none [] none))])]
      []) = .error (.writeFault ["pkgA", "addon.xml"]) ∧
    (etapa_processar_zips [] (FsTree.node
      [("a.zip", .zip [("addon.xml", .xmlDoc
          (.mk "addon" [("id", "pkgA"), ("version", "1.0")] none [] none))]),
       ("b.zip", .zip [("addon.xml", .xmlDoc
          (.mk "addon" [("id", "pkgB"), ("version", "1.0")] none [] none))])]
      [])).map
      (fun s => ((lookupDirIn s.dirs "pkgA").isSome,
        (lookupDirIn s.dirs "pkgB").isSome)) = .ok (true, true) := by
  constructor <;> rfl

/-- C4 amended: a write error while materialising one archive propagates —
the zip list processing stops at the failing archive and the stage returns
that error (nothing is caught); and an error while writing the aggregate
manifest or the digest aborts the aggregation stage; stage errors abort
`main`. -/
theorem C4_amended :
    (∀ fl t z zs e, process_zip fl t z = .error e →
      processZips fl t (z :: zs) = .error e) ∧
    (∀ fl t, ["addons.xml"] ∈ fl → ∃ e, etapa_addons_xml fl t = .error e) ∧
    (∀ fl t, ["addons.xml"] ∉ fl → ["addons.xml.md5"] ∈ fl →
      ∃ e, etapa_addons_xml fl t = .error e) ∧
    (∀ fl t e, etapa_processar_zips fl t = .error e →
      mainPipeline fl t = .error e) := by
  refine ⟨?_, ?_, ?_, ?_⟩
  · intro fl t z zs e h
    simp only [processZips, h]
    rfl
  · intro fl t h
    refine ⟨.writeFault ["addons.xml"], ?_⟩
    simp [etapa_addons_xml, gerar_addons_xml, writeFile, h, Bind.bind,
      Except.bind]
  · intro fl t h1 h2
    obtain ⟨fs, ds⟩ := t
    refine ⟨.writeFault ["addons.xml.md5"], ?_⟩
    simp [etapa_addons_xml, gerar_addons_xml, gerar_md5, writeFile,
      writeAtPath, h1, h2, Bind.bind, Except.bind, FsTree.files,
      lookupFile_putFile_self]
  · intro fl t e h
    simp only [mainPipeline, h]
    rfl

/-- C4 amended, witness: the fault on `pkgA/addon.xml` aborts both the zip
loop and the whole pipeline; faults on the aggregate outputs abort the
aggregation stage. -/
theorem C4_amended_witness :
    processZips [["pkgA", "addon.xml"]] (FsTree.node
      [("a.zip", .zip [("addon.xml", .xmlDoc
          (.mk "addon" [("id", "pkgA"), ("version", "1.0")] none [] none))])]
      []) ["a.zip", "b.zip"] = .error (.writeFault ["pkgA", "addon.xml"]) ∧
    (∃ e, etapa_addons_xml [["addons.xml"]] (FsTree.node [] []) = .error e) ∧
    (∃ e, etapa_addons_xml [["addons.xml.md5"]] (FsTree.node [] [])
        = .error e) ∧
    mainPipeline [["pkgA", "addon.xml"]] (FsTree.node
      [("a.zip", .zip [("addon.xml", .xmlDoc
          (.mk "addon" [("id", "pkgA"), ("version", "1.0")] none [] none))])]
      []) = .error (.writeFault ["pkgA", "addon.xml"]) :=
  ⟨C4_amended.1 _ _ _ ["b.zip"] _ (by rfl),
   C4_amended.2.1 _ _ (by decide),
   C4_amended.2.2.1 _ _ (by decide) (by decide),
   C4_amended.2.2.2 _ _ _ (by rfl)⟩

/-! ## Invariance of name-based scans under `index.html` operations

Writing or deleting a listing page never changes which archives a
directory scan sees: the filters involved reject the name `index.html`. -/

theorem filter_map_of_name (fs : List (String × FileData))
    (f : String × FileData → String × FileData) (q : String → Bool)
    (hf : ∀ p, q (f p).1 = q p.1) (hid : ∀ p, q p.1 = true → f p = p) :
    (fs.map f).filter (fun p => q p.1) = fs.filter (fun p => q p.1) := by
  induction fs with
  | nil => rfl
  | cons p rest ih =>
      cases hq1 : q p.1 with
      | true => simp [List.filter, hf, hq1, hid p hq1, ih]
      | false => simp [List.filter, hf, hq1, ih]

theorem any_map_of_name (fs : List (String × FileData))
    (f : String × FileData → String × FileData) (q : String → Bool)
    (hf : ∀ p, q (f p).1 = q p.1) :
    (fs.map f).any (fun p => q p.1) = fs.any (fun p => q p.1) := by
  induction fs with
  | nil => rfl
  | cons p rest ih => simp [List.any_cons, hf, ih]

theorem filter_filter_of_name (fs : List (String × FileData))
    (r : String × FileData → Bool) (q : String → Bool)
    (hr : ∀ p, q p.1 = true → r p = true) :
    (fs.filter r).filter (fun p => q p.1) = fs.filter (fun p => q p.1) := by
  induction fs with
  | nil => rfl
  | cons p rest ih =>
      cases hq1 : q p.1 with
      | true => simp [List.filter, hq1, hr p hq1, ih]
      | false =>
          cases hr1 : r p with
          | true => simp [List.filter, hq1, hr1, ih]
          | false => simp [List.filter, hq1, hr1, ih]

theorem any_filter_of_name (fs : List (String × FileData))
    (r : String × FileData → Bool) (q : String → Bool)
    (hr : ∀ p, q p.1 = true → r p = true) :
    (fs.filter r).any (fun p => q p.1) = fs.any (fun p => q p.1) := by
  induction fs with
  | nil => rfl
  | cons p rest ih =>
      cases hq1 : q p.1 with
      | true => simp [List.filter, List.any_cons, hq1, hr p hq1, ih]
      | false =>
          cases hr1 : r p with
          | true => simp [List.filter, List.any_cons, hq1, hr1, ih]
          | false => simp [List.filter, List.any_cons, hq1, hr1, ih]

theorem putFn_name (n : String) (d : FileData) (q : String → Bool)
    (hq : q n = false) :
    ∀ p : String × FileData,
      q ((if p.1 == n then (n, d) else p)).1 = q p.1 := by
  intro p
  cases hb : (p.1 == n) with
  | true =>
      have hm : p.1 = n := eq_of_beq hb
      simp [hb, hq, hm]
  | false => simp [hb]

theorem putFn_id (n : String) (d : FileData) (q : String → Bool)
    (hq : q n = false) :
    ∀ p : String × FileData, q p.1 = true →
      (if p.1 == n then (n, d) else p) = p := by
  intro p hp
  cases hb : (p.1 == n) with
  | true =>
      have hm : p.1 = n := eq_of_beq hb
      rw [hm, hq] at hp
      cases hp
  | false => simp [hb]

theorem removeFn_keep (n : String) (q : String → Bool) (hq : q n = false) :
    ∀ p : String × FileData, q p.1 = true → (!(p.1 == n)) = true := by
  intro p hp
  cases hb : (p.1 == n) with
  | true =>
      have hm : p.1 = n := eq_of_beq hb
      rw [hm, hq] at hp
      cases hp
  | false => rfl

theorem filter_putFile (fs : List (String × FileData)) (n : String)
    (d : FileData) (q : String → Bool) (hq : q n = false) :
    (putFile fs n d).filter (fun p => q p.1) = fs.filter (fun p => q p.1) := by
  unfold putFile
  split
  · exact filter_map_of_name fs _ q (putFn_name n d q hq) (putFn_id n d q hq)
  · simp [List.filter_append, List.filter, hq]

theorem any_putFile (fs : List (String × FileData)) (n : String)
    (d : FileData) (q : String → Bool) (hq : q n = false) :
    (putFile fs n d).any (fun p => q p.1) = fs.any (fun p => q p.1) := by
  unfold putFile
  split
  · exact any_map_of_name fs _ q (putFn_name n d q hq)
  · simp [List.any_append, hq]

theorem filter_removeFile (fs : List (String × FileData)) (n : String)
    (q : String → Bool) (hq : q n = false) :
    (removeFile fs n).filter (fun p => q p.1) = fs.filter (fun p => q p.1) :=
  filter_filter_of_name fs _ q (removeFn_keep n q hq)

theorem any_removeFile (fs : List (String × FileData)) (n : String)
    (q : String → Bool) (hq : q n = false) :
    (removeFile fs n).any (fun p => q p.1) = fs.any (fun p => q p.1) :=
  any_filter_of_name fs _ q (removeFn_keep n q hq)

theorem tem_zip_removeIndexHtml (t : FsTree) :
    pasta_tem_zip (removeIndexHtml t) = pasta_tem_zip t := by
  obtain ⟨fs, ds⟩ := t
  show ((removeFile fs "index.html").any (fun p => isZipEntryName p.1) ||
      temZipDirs ds) =
    (fs.any (fun p => isZipEntryName p.1) || temZipDirs ds)
  rw [any_removeFile _ _ _ (by decide)]

theorem tem_zip_putIndexHtml (t : FsTree) (c : String) :
    pasta_tem_zip (putIndexHtml t c) = pasta_tem_zip t := by
  obtain ⟨fs, ds⟩ := t
  show ((putFile fs "index.html" (.bytes c)).any
      (fun p => isZipEntryName p.1) || temZipDirs ds) =
    (fs.any (fun p => isZipEntryName p.1) || temZipDirs ds)
  rw [any_putFile _ _ _ _ (by decide)]

theorem tem_zip_gerar_ou_remover (b : Bool) (t : FsTree) :
    pasta_tem_zip (gerar_ou_remover_index b t) = pasta_tem_zip t := by
  simp only [gerar_ou_remover_index]
  split
  · exact tem_zip_removeIndexHtml t
  · split <;>
      (split <;>
        first
          | exact tem_zip_removeIndexHtml t
          | exact tem_zip_putIndexHtml t _)

theorem rglob_removeIndexHtml (t : FsTree) :
    rglobRepoZip (removeIndexHtml t) = rglobRepoZip t := by
  obtain ⟨fs, ds⟩ := t
  show (((removeFile fs "index.html").filter
      (fun p => matchesRepoGlob p.1)).map (fun p => [p.1]) ++
      (((ds.filter (fun p => matchesRepoGlob p.1)).map (fun p => [p.1])) ++
        rglobRepoZipDirs ds)) =
    ((fs.filter (fun p => matchesRepoGlob p.1)).map (fun p => [p.1]) ++
      (((ds.filter (fun p => matchesRepoGlob p.1)).map (fun p => [p.1])) ++
        rglobRepoZipDirs ds))
  rw [filter_removeFile _ _ _ (by decide)]

theorem rglob_putIndexHtml (t : FsTree) (c : String) :
    rglobRepoZip (putIndexHtml t c) = rglobRepoZip t := by
  obtain ⟨fs, ds⟩ := t
  show (((putFile fs "index.html" (.bytes c)).filter
      (fun p => matchesRepoGlob p.1)).map (fun p => [p.1]) ++
      (((ds.filter (fun p => matchesRepoGlob p.1)).map (fun p => [p.1])) ++
        rglobRepoZipDirs ds)) =
    ((fs.filter (fun p => matchesRepoGlob p.1)).map (fun p => [p.1]) ++
      (((ds.filter (fun p => matchesRepoGlob p.1)).map (fun p => [p.1])) ++
        rglobRepoZipDirs ds))
  rw [filter_putFile _ _ _ _ (by decide)]

theorem encontrar_eq_of_rglob_eq {t1 t2 : FsTree}
    (h : rglobRepoZip t1 = rglobRepoZip t2) :
    encontrar_repos_mais_recentes t1 = encontrar_repos_mais_recentes t2 := by
  unfold encontrar_repos_mais_recentes
  rw [h]

theorem encontrar_gerar_ou_remover (b : Bool) (t : FsTree) :
    encontrar_repos_mais_recentes (gerar_ou_remover_index b t) =
      encontrar_repos_mais_recentes t := by
  simp only [gerar_ou_remover_index]
  split
  · exact encontrar_eq_of_rglob_eq (rglob_removeIndexHtml t)
  · split <;>
      (split <;>
        first
          | exact encontrar_eq_of_rglob_eq (rglob_removeIndexHtml t)
          | exact encontrar_eq_of_rglob_eq (rglob_putIndexHtml t _))

/-! ## Existence of listing pages after processing one directory -/

theorem hasIndex_gerar_false (y : FsTree) :
    (lookupFile (gerar_ou_remover_index false y).files "index.html").isSome =
      pasta_tem_zip y := by
  obtain ⟨fs, ds⟩ := y
  unfold gerar_ou_remover_index
  cases htz : pasta_tem_zip (FsTree.node fs ds) with
  | false =>
      rw [if_pos (by simp [htz])]
      show (lookupFile (removeFile fs "index.html") "index.html").isSome = false
      rw [lookupFile_removeFile_self]
      rfl
  | true =>
      rw [if_neg (by simp [htz])]
      rw [if_neg (by simp)]
      show (lookupFile (putFile fs "index.html" _) "index.html").isSome = true
      rw [lookupFile_putFile_self]
      rfl

theorem hasIndex_gerar_true (y : FsTree) :
    (lookupFile (gerar_ou_remover_index true y).files "index.html").isSome =
      !(encontrar_repos_mais_recentes y).isEmpty := by
  obtain ⟨fs, ds⟩ := y
  unfold gerar_ou_remover_index
  rw [if_neg (by simp)]
  cases hrep : (encontrar_repos_mais_recentes (FsTree.node fs ds)).isEmpty with
  | true =>
      rw [if_pos (by simp [hrep])]
      show (lookupFile (removeFile fs "index.html") "index.html").isSome = _
      rw [lookupFile_removeFile_self]
      rfl
  | false =>
      rw [if_neg (by simp [hrep])]
      show (lookupFile (putFile fs "index.html" _) "index.html").isSome = _
      rw [lookupFile_putFile_self]
      rfl

/-! ## Looking up directories below a processed tree -/

theorem lookupDirPath_gerar (b : Bool) (y : FsTree) (s : String)
    (rest : List String) :
    lookupDirPath (gerar_ou_remover_index b y) (s :: rest) =
      lookupDirPath y (s :: rest) := by
  simp only [lookupDirPath, dirs_gerar_ou_remover]

theorem lookupDirIn_mem (ds : List (String × FsTree)) (s : String)
    (u : FsTree) (h : lookupDirIn ds s = some u) : (s, u) ∈ ds := by
  induction ds with
  | nil => cases h
  | cons p rest ih =>
      obtain ⟨m, e⟩ := p
      cases hb : (m == s) with
      | true =>
          have hm : m = s := eq_of_beq hb
          subst hm
          simp only [lookupDirIn, List.find?, hb] at h
          injection h with h
          subst h
          exact List.mem_cons_self ..
      | false =>
          simp only [lookupDirIn, List.find?, hb] at h
          exact List.mem_cons_of_mem _ (ih h)

theorem lookupDirIn_varrerSubdirs (ds : List (String × FsTree)) (s : String) :
    lookupDirIn (varrerSubdirs ds) s = (lookupDirIn ds s).map
      (fun sub => if strStartsWith s "." then sub
        else varrer_bottom_up false sub) := by
  induction ds with
  | nil => rfl
  | cons p rest ih =>
      obtain ⟨n, sub⟩ := p
      cases hb : (n == s) with
      | true =>
          have hn : n = s := eq_of_beq hb
          subst hn
          simp [varrerSubdirs, lookupDirIn, List.find?, hb]
      | false =>
          simpa [varrerSubdirs, lookupDirIn, List.find?, hb] using ih

/-- Strong induction over directory trees. -/
theorem FsTree.strongInd {P : FsTree → Prop}
    (H : ∀ fs ds, (∀ n sub, (n, sub) ∈ ds → P sub) → P (.node fs ds)) :
    ∀ t, P t
  | .node fs ds => H fs ds (fun n sub hmem => FsTree.strongInd H sub)
termination_by t => sizeOf t
decreasing_by
  have h1 := List.sizeOf_lt_of_mem hmem
  simp only [Prod.mk.sizeOf_spec] at h1
  simp only [FsTree.node.sizeOf_spec]
  omega

/-- After the sweep processes a (non-root) directory, every directory at
any depth inside the processed result that is reached through non-hidden
components — including the processed directory itself — has a listing page
exactly when some archive-named entry lies beneath it. -/
theorem after_sweep_iff : ∀ (sub : FsTree) (path : List String) (d : FsTree),
    (∀ s ∈ path, strStartsWith s "." = false) →
    lookupDirPath (varrer_bottom_up false sub) path = some d →
    ((lookupFile d.files "index.html").isSome ↔ pasta_tem_zip d = true) := by
  apply FsTree.strongInd
    (P := fun sub => ∀ (path : List String) (d : FsTree),
      (∀ s ∈ path, strStartsWith s "." = false) →
      lookupDirPath (varrer_bottom_up false sub) path = some d →
      ((lookupFile d.files "index.html").isSome ↔ pasta_tem_zip d = true))
  intro fs ds IH path d hnd hlk
  cases path with
  | nil =>
      simp only [lookupDirPath, Option.some.injEq] at hlk
      subst hlk
      rw [varrer_bottom_up]
      constructor
      · intro h
        rw [tem_zip_gerar_ou_remover]
        rw [hasIndex_gerar_false] at h
        exact h
      · intro h
        rw [tem_zip_gerar_ou_remover] at h
        rw [hasIndex_gerar_false]
        exact h
  | cons s rest =>
      have hs : strStartsWith s "." = false := hnd s (List.mem_cons_self ..)
      rw [varrer_bottom_up, lookupDirPath_gerar] at hlk
      simp only [lookupDirPath, FsTree.dirs, lookupDirIn_varrerSubdirs] at hlk
      cases hfind : lookupDirIn ds s with
      | none => rw [hfind] at hlk; cases hlk
      | some sub0 =>
          rw [hfind] at hlk
          simp only [Option.map_some, hs, if_false, Bool.false_eq_true] at hlk
          exact IH s sub0 (lookupDirIn_mem ds s sub0 hfind) rest d
            (fun x hx => hnd x (List.mem_cons_of_mem _ hx)) hlk

/-! ## C1 — the listing-existence invariant (corrected)

The sweep never visits dot-prefixed directories, so the invariant claimed
for every directory holds only along non-hidden paths; a hidden directory
containing an archive ends the run with no listing page. -/

/-- C1 counterexample: a repository whose only archive sits inside the
hidden directory `.hidden`.  After the listing stage, `.hidden` still
contains an archive but has no `index.html`, contradicting the claimed
invariant for "every directory". -/
theorem C1_counterexample :
    (lookupDirPath (etapa_index (FsTree.node []
        [(".hidden", FsTree.node [("a.zip", .bytes "")] [])])) [".hidden"]).map
      (fun d => (pasta_tem_zip d, (lookupFile d.files "index.html").isSome)) =
      some (true, false) := by
  rfl

/-- C1 amended: after `etapa_index`, (1) every directory reached from the
root through non-dot-prefixed components has an `index.html` exactly when
some `.zip`-named entry lies anywhere beneath it, and (2) the root has an
`index.html` exactly when the root-package scan
(`encontrar_repos_mais_recentes`) finds at least one match in the tree. -/
theorem C1_amended :
    (∀ (t : FsTree) (path : List String) (d : FsTree), path ≠ [] →
      (∀ s ∈ path, strStartsWith s "." = false) →
      lookupDirPath (etapa_index t) path = some d →
      ((lookupFile d.files "index.html").isSome ↔ pasta_tem_zip d = true)) ∧
    (∀ t : FsTree, (lookupFile (etapa_index t).files "index.html").isSome ↔
      encontrar_repos_mais_recentes (etapa_index t) ≠ []) := by
  constructor
  · intro t path d hne hnd hlk
    obtain ⟨fs, ds⟩ := t
    cases path with
    | nil => exact absurd rfl hne
    | cons s rest =>
        have hs : strStartsWith s "." = false := hnd s (List.mem_cons_self ..)
        unfold etapa_index at hlk
        rw [lookupDirPath_gerar] at hlk
        rw [varrer_bottom_up, lookupDirPath_gerar] at hlk
        simp only [lookupDirPath, FsTree.dirs, lookupDirIn_varrerSubdirs]
          at hlk
        cases hfind : lookupDirIn ds s with
        | none => rw [hfind] at hlk; cases hlk
        | some sub0 =>
            rw [hfind] at hlk
            simp only [Option.map_some, hs, if_false, Bool.false_eq_true]
              at hlk
            exact after_sweep_iff sub0 rest d
              (fun x hx => hnd x (List.mem_cons_of_mem _ hx)) hlk
  · intro t
    show (lookupFile (gerar_ou_remover_index true
        (varrer_bottom_up true t)).files "index.html").isSome ↔ _
    rw [hasIndex_gerar_true]
    have : encontrar_repos_mais_recentes (etapa_index t) =
        encontrar_repos_mais_recentes (varrer_bottom_up true t) := by
      exact encontrar_gerar_ou_remover true (varrer_bottom_up true t)
    unfold etapa_index at this ⊢
    rw [this]
    cases h : (encontrar_repos_mais_recentes (varrer_bottom_up true t)) with
    | nil => simp
    | cons a l => simp

/-- C1 amended, witness: a repository with one package folder holding a
zip (listing present), an empty folder (no listing), and a root-package
archive (root listing present). -/
theorem C1_amended_witness :
    ((lookupFile ((lookupDirPath
        (etapa_index (FsTree.node [("One.repo-1.0.0.zip", FileData.bytes "")]
          [("pkg", FsTree.node [("pkg-1.0.0.zip", FileData.bytes "")] [])]))
        ["pkg"]).getD (FsTree.node [] [])).files "index.html").isSome ↔
      pasta_tem_zip ((lookupDirPath
        (etapa_index (FsTree.node [("One.repo-1.0.0.zip", FileData.bytes "")]
          [("pkg", FsTree.node [("pkg-1.0.0.zip", FileData.bytes "")] [])]))
        ["pkg"]).getD (FsTree.node [] [])) = true) ∧
    ((lookupFile (etapa_index (FsTree.node
        [("One.repo-1.0.0.zip", FileData.bytes "")]
        [("pkg", FsTree.node [("pkg-1.0.0.zip", FileData.bytes "")] [])])).files
        "index.html").isSome ↔
      encontrar_repos_mais_recentes (etapa_index (FsTree.node
        [("One.repo-1.0.0.zip", FileData.bytes "")]
        [("pkg", FsTree.node
          [("pkg-1.0.0.zip", FileData.bytes "")] [])])) ≠ []) := by
  constructor
  · exact C1_amended.1
      (FsTree.node [("One.repo-1.0.0.zip", FileData.bytes "")]
        [("pkg", FsTree.node [("pkg-1.0.0.zip", FileData.bytes "")] [])])
      ["pkg"] _ (by decide) (by decide) (by rfl)
  · exact C1_amended.2
      (FsTree.node [("One.repo-1.0.0.zip", FileData.bytes "")]
        [("pkg", FsTree.node [("pkg-1.0.0.zip", FileData.bytes "")] [])])

/-! ## C2 — idempotence of the full pipeline

Support part 1: a stable merge sort commutes with `filter`, so dropping
elements that the listing renderer ignores (such as the `index.html` entry
itself) does not disturb the rendered lines. -/

theorem append_pred_split {α : Type} (q : α → Bool) :
    ∀ (X₁ Y₁ X₂ Y₂ : List α), X₁ ++ X₂ = Y₁ ++ Y₂ →
    (∀ b ∈ X₁, q b = true) → (∀ b ∈ X₂, q b = false) →
    (∀ b ∈ Y₁, q b = true) → (∀ b ∈ Y₂, q b = false) →
    X₁ = Y₁ ∧ X₂ = Y₂ := by
  intro X₁
  induction X₁ with
  | nil =>
      intro Y₁ X₂ Y₂ h hx1 hx2 hy1 hy2
      cases Y₁ with
      | nil => exact ⟨rfl, h⟩
      | cons y Y₁ =>
          exfalso
          have hy : q y = true := hy1 y (List.mem_cons_self ..)
          have hx : q y = false := hx2 y (by
            rw [List.nil_append] at h
            rw [h]; exact List.mem_cons_self ..)
          rw [hy] at hx
          cases hx
  | cons x X₁ ih =>
      intro Y₁ X₂ Y₂ h hx1 hx2 hy1 hy2
      cases Y₁ with
      | nil =>
          exfalso
          have hx : q x = true := hx1 x (List.mem_cons_self ..)
          have hy : q x = false := hy2 x (by
            rw [List.nil_append] at h
            rw [← h]; exact List.mem_cons_self ..)
          rw [hx] at hy
          cases hy
      | cons y Y₁ =>
          simp only [List.cons_append, List.cons.injEq] at h
          obtain ⟨hxy, htl⟩ := h
          obtain ⟨h1, h2⟩ := ih Y₁ X₂ Y₂ htl
            (fun b hb => hx1 b (List.mem_cons_of_mem _ hb)) hx2
            (fun b hb => hy1 b (List.mem_cons_of_mem _ hb)) hy2
          exact ⟨by rw [hxy, h1], h2⟩

theorem filter_mergeSort {α : Type} (le : α → α → Bool)
    (htrans : ∀ a b c, le a b → le b c → le a c)
    (htotal : ∀ a b, le a b || le b a) (p : α → Bool) :
    ∀ l : List α, (l.mergeSort le).filter p = (l.filter p).mergeSort le := by
  intro l
  induction l with
  | nil => simp
  | cons a l ih =>
      obtain ⟨l₁, l₂, hsplit, hl, hlow⟩ := List.mergeSort_cons htrans htotal a l
      cases hp : p a with
      | false =>
          rw [hsplit, List.filter_append]
          have h2 : List.filter p (a :: l₂) = List.filter p l₂ := by
            simp [List.filter_cons, hp]
          rw [h2, ← List.filter_append, ← hl, ih]
          congr 1
          simp [List.filter_cons, hp]
      | true =>
          have hra : List.filter p (a :: l) = a :: List.filter p l := by
            simp [List.filter_cons, hp]
          rw [hra]
          obtain ⟨m₁, m₂, hsplit2, hm, hlow2⟩ :=
            List.mergeSort_cons htrans htotal a (List.filter p l)
          rw [hsplit2]
          have hih : List.filter p l₁ ++ List.filter p l₂ = m₁ ++ m₂ := by
            rw [← List.filter_append, ← hl, ih, hm]
          have hs1 : List.Pairwise (fun x y => le x y = true) (l₁ ++ a :: l₂) := by
            rw [← hsplit]
            exact List.sorted_mergeSort htrans htotal (a :: l)
          have hs2 : List.Pairwise (fun x y => le x y = true)
              (m₁ ++ a :: m₂) := by
            rw [← hsplit2]
            exact List.sorted_mergeSort htrans htotal (a :: List.filter p l)
          have hle2 : ∀ b ∈ l₂, le a b = true := by
            intro b hb
            exact List.rel_of_pairwise_cons
              ((List.pairwise_append.mp hs1).2.1) hb
          have hle2m : ∀ b ∈ m₂, le a b = true := by
            intro b hb
            exact List.rel_of_pairwise_cons
              ((List.pairwise_append.mp hs2).2.1) hb
          obtain ⟨e1, e2⟩ := append_pred_split (fun b => !le a b)
            (List.filter p l₁) m₁ (List.filter p l₂) m₂ hih
            (fun b hb => by
              show (!le a b) = true
              rw [hlow b (List.mem_of_mem_filter hb)])
            (fun b hb => by
              show (!le a b) = false
              rw [hle2 b (List.mem_of_mem_filter hb)]; rfl)
            (fun b hb => by
              show (!le a b) = true
              rw [hlow2 b hb])
            (fun b hb => by
              show (!le a b) = false
              rw [hle2m b hb]; rfl)
          rw [hsplit, List.filter_append]
          have h2 : List.filter p (a :: l₂) = a :: List.filter p l₂ := by
            simp [List.filter_cons, hp]
          rw [h2, e1, e2]

theorem filterMap_filter_of_none {α β : Type} (g : α → Option β)
    (p : α → Bool) (hgp : ∀ y, p y = false → g y = none) :
    ∀ l : List α, l.filterMap g = (l.filter p).filterMap g := by
  intro l
  induction l with
  | nil => rfl
  | cons a l ih =>
      cases hp : p a with
      | true => simp [List.filter_cons, List.filterMap_cons, hp, ih]
      | false =>
          simp [List.filter_cons, List.filterMap_cons, hp, hgp a hp, ih]

/-! Support part 2: the rendered listing lines ignore the `index.html`
entry, so writing or deleting the listing file does not change what the
next rendering produces. -/

theorem itemKeyLe_total (a b : DirItem) : itemKeyLe a b || itemKeyLe b a := by
  unfold itemKeyLe
  cases ha : a.isFile <;> cases hb : b.isFile <;>
    simp [ha, hb, strLe_total]

theorem itemKeyLe_trans (a b c : DirItem) (h1 : itemKeyLe a b = true)
    (h2 : itemKeyLe b c = true) : itemKeyLe a c = true := by
  unfold itemKeyLe at h1 h2 ⊢
  cases ha : a.isFile <;> cases hb : b.isFile <;> cases hc : c.isFile <;>
    simp_all <;> exact strLe_trans _ _ _ h1 h2

theorem filterMap_mergeSort_congr {α β : Type} (le : α → α → Bool)
    (htrans : ∀ a b c, le a b → le b c → le a c)
    (htotal : ∀ a b, le a b || le b a)
    (g : α → Option β) (p : α → Bool)
    (hgp : ∀ y, p y = false → g y = none) (l l2 : List α)
    (h : l.filter p = l2.filter p) :
    (l.mergeSort le).filterMap g = (l2.mergeSort le).filterMap g := by
  rw [filterMap_filter_of_none g p hgp ((l.mergeSort le)),
      filterMap_filter_of_none g p hgp ((l2.mergeSort le)),
      filter_mergeSort le htrans htotal p, filter_mergeSort le htrans htotal p,
      h]

theorem renderEntryLines_files_inv (fs fs1 : List (String × FileData))
    (ds : List (String × FsTree))
    (hf : fs1.filter (fun p => !(strStartsWith p.1 "." || p.1 == "index.html")) =
      fs.filter (fun p => !(strStartsWith p.1 "." || p.1 == "index.html"))) :
    renderEntryLines (.node fs1 ds) = renderEntryLines (.node fs ds) := by
  unfold renderEntryLines
  refine filterMap_mergeSort_congr itemKeyLe itemKeyLe_trans itemKeyLe_total _
    (fun it => !(strStartsWith it.name "." || it.name == "index.html"))
    ?_ _ _ ?_
  · intro y hy
    have hy2 : (!(strStartsWith y.name "." || y.name == "index.html")) =
        false := hy
    cases hcond : (strStartsWith y.name "." || y.name == "index.html") with
    | false => rw [hcond] at hy2; cases hy2
    | true => rfl
  · have key : ∀ xs : List (String × FileData),
        (iterdirItems (FsTree.node xs ds)).filter
          (fun it => !(strStartsWith it.name "." || it.name == "index.html")) =
        (xs.filter
            (fun p => !(strStartsWith p.1 "." || p.1 == "index.html"))).map
            (fun p => DirItem.file p.1 p.2) ++
          (ds.map (fun p => DirItem.dir p.1 p.2)).filter
            (fun it => !(strStartsWith it.name "." || it.name == "index.html"))
        := by
      intro xs
      simp only [iterdirItems, FsTree.files, FsTree.dirs, List.filter_append]
      congr 1
      rw [List.filter_map]
      rfl
    rw [key fs1, key fs, hf]

theorem renderIndex_putIndexHtml (b : Bool) (t : FsTree) (c : String)
    (repos : List (List String)) :
    renderIndex b (putIndexHtml t c) repos = renderIndex b t repos := by
  obtain ⟨fs, ds⟩ := t
  unfold renderIndex
  have : renderEntryLines (putIndexHtml (FsTree.node fs ds) c) =
      renderEntryLines (FsTree.node fs ds) := by
    show renderEntryLines (FsTree.node
      (putFile fs "index.html" (.bytes c)) ds) = _
    exact renderEntryLines_files_inv fs _ ds
      (filter_putFile fs "index.html" (.bytes c)
        (fun n => !(strStartsWith n "." || n == "index.html")) (by decide))
  rw [this]

theorem renderIndex_removeIndexHtml (b : Bool) (t : FsTree)
    (repos : List (List String)) :
    renderIndex b (removeIndexHtml t) repos = renderIndex b t repos := by
  obtain ⟨fs, ds⟩ := t
  unfold renderIndex
  have : renderEntryLines (removeIndexHtml (FsTree.node fs ds)) =
      renderEntryLines (FsTree.node fs ds) := by
    show renderEntryLines (FsTree.node (removeFile fs "index.html") ds) = _
    exact renderEntryLines_files_inv fs _ ds
      (filter_removeFile fs "index.html"
        (fun n => !(strStartsWith n "." || n == "index.html")) (by decide))
  rw [this]

/-! Support part 3: algebra of repeated writes and deletes of one file. -/

theorem removeFile_removeFile (fs : List (String × FileData)) (n : String) :
    removeFile (removeFile fs n) n = removeFile fs n := by
  unfold removeFile
  induction fs with
  | nil => rfl
  | cons p rest ih =>
      cases hb : (p.1 == n) with
      | true => simp [List.filter_cons, hb, ih]
      | false => simp [List.filter_cons, hb, ih]

theorem any_map_put_self (fs : List (String × FileData)) (n : String)
    (d : FileData) :
    (fs.map (fun p => if p.1 == n then (n, d) else p)).any
        (fun p => p.1 == n) =
      fs.any (fun p => p.1 == n) := by
  induction fs with
  | nil => rfl
  | cons p rest ih =>
      cases hb : (p.1 == n) with
      | true =>
          simp only [List.map_cons, List.any_cons]
          have hhead : ((if p.1 == n then (n, d) else p).1 == n) = true := by
            simp [hb]
          rw [hhead, hb]
          simp
      | false =>
          simp only [List.map_cons, List.any_cons]
          have hhead : ((if p.1 == n then (n, d) else p).1 == n) = false := by
            simp [hb]
          rw [hhead, hb]
          simp only [Bool.false_or]
          exact ih

theorem map_put_id_of_absent (fs : List (String × FileData)) (n : String)
    (d : FileData) (h : fs.any (fun p => p.1 == n) = false) :
    fs.map (fun p => if p.1 == n then (n, d) else p) = fs := by
  induction fs with
  | nil => rfl
  | cons p rest ih =>
      cases hb : (p.1 == n) with
      | true => simp [List.any_cons, hb] at h
      | false =>
          simp only [List.any_cons, hb, Bool.false_or] at h
          simp only [List.map_cons]
          have hhead : (if p.1 == n then (n, d) else p) = p := by simp [hb]
          rw [hhead, ih h]

theorem putFile_putFile (fs : List (String × FileData)) (n : String)
    (d e : FileData) : putFile (putFile fs n d) n e = putFile fs n e := by
  cases hany : fs.any (fun p => p.1 == n) with
  | true =>
      have h1 : putFile fs n d =
          fs.map (fun p => if p.1 == n then (n, d) else p) := by
        unfold putFile; rw [if_pos hany]
      rw [h1]
      unfold putFile
      rw [if_pos (by rw [any_map_put_self]; exact hany), if_pos hany,
        List.map_map]
      refine List.map_congr_left ?_
      intro p hp
      show (fun p => if p.1 == n then (n, e) else p)
          ((fun p => if p.1 == n then (n, d) else p) p) = _
      cases hb : (p.1 == n) with
      | true => simp [hb]
      | false => simp [hb]
  | false =>
      have h1 : putFile fs n d = fs ++ [(n, d)] := by
        unfold putFile; rw [if_neg (by rw [hany]; exact Bool.false_ne_true)]
      rw [h1]
      unfold putFile
      rw [if_pos (by simp [List.any_append]),
        if_neg (by rw [hany]; exact Bool.false_ne_true),
        List.map_append, map_put_id_of_absent fs n e hany]
      simp

theorem putFile_of_allEq (fs : List (String × FileData)) (n : String)
    (d : FileData) (hpres : fs.any (fun p => p.1 == n) = true)
    (hall : ∀ p ∈ fs, p.1 = n → p.2 = d) : putFile fs n d = fs := by
  unfold putFile
  rw [if_pos hpres]
  refine (List.map_congr_left ?_).trans (List.map_id fs)
  intro p hp
  show (if p.1 == n then (n, d) else p) = p
  cases hb : (p.1 == n) with
  | true =>
      obtain ⟨m, v⟩ := p
      have hm : m = n := eq_of_beq hb
      have hv : v = d := hall (m, v) hp hm
      simp [hb, hm, hv]
  | false => simp [hb]

theorem allEq_putFile_self (fs : List (String × FileData)) (n : String)
    (d : FileData) :
    ∀ p ∈ putFile fs n d, p.1 = n → p.2 = d := by
  unfold putFile
  split
  · intro p hp h1
    obtain ⟨q, hq, hfq⟩ := List.mem_map.mp hp
    cases hb : (q.1 == n) with
    | true =>
        rw [hb] at hfq
        simp at hfq
        rw [← hfq]
    | false =>
        rw [hb] at hfq
        simp at hfq
        rw [← hfq] at h1
        exact absurd h1 (by simpa using hb)
  · intro p hp h1
    rcases List.mem_append.mp hp with hin | hin
    · next hany =>
        exfalso
        exact hany (List.any_eq_true.mpr ⟨p, hin, by simpa using h1⟩)
    · have : p = (n, d) := by simpa using hin
      rw [this]

theorem allEq_putFile_other (fs : List (String × FileData)) {n m : String}
    (e d : FileData) (hmn : m ≠ n)
    (hall : ∀ p ∈ fs, p.1 = n → p.2 = d) :
    ∀ p ∈ putFile fs m e, p.1 = n → p.2 = d := by
  unfold putFile
  split
  · intro p hp h1
    obtain ⟨q, hq, hfq⟩ := List.mem_map.mp hp
    cases hb : (q.1 == m) with
    | true =>
        rw [hb] at hfq
        simp at hfq
        rw [← hfq] at h1
        exact absurd h1 hmn
    | false =>
        rw [hb] at hfq
        simp at hfq
        rw [← hfq] at h1 ⊢
        exact hall q hq h1
  · intro p hp h1
    rcases List.mem_append.mp hp with hin | hin
    · exact hall p hin h1
    · have : p = (m, e) := by simpa using hin
      rw [this] at h1
      exact absurd h1 hmn

theorem allEq_removeFile (fs : List (String × FileData)) (m n : String)
    (d : FileData) (hall : ∀ p ∈ fs, p.1 = n → p.2 = d) :
    ∀ p ∈ removeFile fs m, p.1 = n → p.2 = d :=
  fun p hp => hall p (List.mem_of_mem_filter hp)

theorem removeIndexHtml_idem (u : FsTree) :
    removeIndexHtml (removeIndexHtml u) = removeIndexHtml u := by
  obtain ⟨fs, ds⟩ := u
  show FsTree.node (removeFile (removeFile fs "index.html") "index.html") ds = _
  rw [removeFile_removeFile]
  rfl

theorem putIndexHtml_putIndexHtml (u : FsTree) (c c2 : String) :
    putIndexHtml (putIndexHtml u c) c2 = putIndexHtml u c2 := by
  obtain ⟨fs, ds⟩ := u
  show FsTree.node (putFile (putFile fs "index.html" (.bytes c)) "index.html"
    (.bytes c2)) ds = _
  rw [putFile_putFile]
  rfl

/-! Support part 4: processing a directory twice (same root flag) equals
processing it once, and the bottom-up sweep is idempotent. -/

theorem gerar_false_nozip (u : FsTree) (h : pasta_tem_zip u = false) :
    gerar_ou_remover_index false u = removeIndexHtml u := by
  simp [gerar_ou_remover_index, h]

theorem gerar_false_zip (u : FsTree) (h : pasta_tem_zip u = true) :
    gerar_ou_remover_index false u =
      putIndexHtml u (renderIndex false u []) := by
  simp [gerar_ou_remover_index, h]

theorem gerar_true_eq (u : FsTree) :
    gerar_ou_remover_index true u =
      (if (encontrar_repos_mais_recentes u).isEmpty then removeIndexHtml u
       else putIndexHtml u
         (renderIndex true u (encontrar_repos_mais_recentes u))) := by
  simp [gerar_ou_remover_index]

theorem encontrar_removeIndexHtml (u : FsTree) :
    encontrar_repos_mais_recentes (removeIndexHtml u) =
      encontrar_repos_mais_recentes u :=
  encontrar_eq_of_rglob_eq (rglob_removeIndexHtml u)

theorem encontrar_putIndexHtml (u : FsTree) (c : String) :
    encontrar_repos_mais_recentes (putIndexHtml u c) =
      encontrar_repos_mais_recentes u :=
  encontrar_eq_of_rglob_eq (rglob_putIndexHtml u c)

theorem gerar_idem (b : Bool) (u : FsTree) :
    gerar_ou_remover_index b (gerar_ou_remover_index b u) =
      gerar_ou_remover_index b u := by
  cases b with
  | false =>
      cases htz : pasta_tem_zip u with
      | false =>
          rw [gerar_false_nozip u htz,
              gerar_false_nozip _ (by rw [tem_zip_removeIndexHtml]; exact htz),
              removeIndexHtml_idem]
      | true =>
          rw [gerar_false_zip u htz,
              gerar_false_zip _ (by rw [tem_zip_putIndexHtml]; exact htz),
              renderIndex_putIndexHtml, putIndexHtml_putIndexHtml]
  | true =>
      rw [gerar_true_eq u]
      cases hrep : (encontrar_repos_mais_recentes u).isEmpty with
      | true =>
          show gerar_ou_remover_index true (removeIndexHtml u) =
            removeIndexHtml u
          rw [gerar_true_eq (removeIndexHtml u), encontrar_removeIndexHtml,
              hrep]
          show removeIndexHtml (removeIndexHtml u) = removeIndexHtml u
          exact removeIndexHtml_idem u
      | false =>
          show gerar_ou_remover_index true (putIndexHtml u
              (renderIndex true u (encontrar_repos_mais_recentes u))) =
            putIndexHtml u (renderIndex true u
              (encontrar_repos_mais_recentes u))
          rw [gerar_true_eq, encontrar_putIndexHtml, hrep]
          show putIndexHtml (putIndexHtml u (renderIndex true u
              (encontrar_repos_mais_recentes u)))
              (renderIndex true (putIndexHtml u (renderIndex true u
                (encontrar_repos_mais_recentes u)))
                (encontrar_repos_mais_recentes u)) =
            putIndexHtml u (renderIndex true u
              (encontrar_repos_mais_recentes u))
          rw [renderIndex_putIndexHtml, putIndexHtml_putIndexHtml]

theorem gerar_node_form (b : Bool) (fs : List (String × FileData))
    (ds : List (String × FsTree)) :
    ∃ fs2, gerar_ou_remover_index b (FsTree.node fs ds) =
      FsTree.node fs2 ds := by
  simp only [gerar_ou_remover_index]
  split
  · exact ⟨_, rfl⟩
  · split
    · split
      · exact ⟨_, rfl⟩
      · exact ⟨_, rfl⟩
    · split
      · exact ⟨_, rfl⟩
      · exact ⟨_, rfl⟩

theorem varrerSubdirs_idem_of (ds : List (String × FsTree))
    (ih : ∀ n sub, (n, sub) ∈ ds →
      varrer_bottom_up false (varrer_bottom_up false sub) =
        varrer_bottom_up false sub) :
    varrerSubdirs (varrerSubdirs ds) = varrerSubdirs ds := by
  rw [varrerSubdirs_eq_map, varrerSubdirs_eq_map, List.map_map]
  refine List.map_congr_left ?_
  intro p hp
  obtain ⟨n, sub⟩ := p
  cases hdot : strStartsWith n "." with
  | true => simp [Function.comp, hdot]
  | false => simp [Function.comp, hdot, ih n sub hp]

theorem varrer_false_idem (t : FsTree) :
    varrer_bottom_up false (varrer_bottom_up false t) =
      varrer_bottom_up false t := by
  refine @FsTree.strongInd
    (fun u => varrer_bottom_up false (varrer_bottom_up false u) =
      varrer_bottom_up false u) ?_ t
  intro fs ds ih
  have h1 : varrer_bottom_up false (FsTree.node fs ds) =
      gerar_ou_remover_index false (FsTree.node fs (varrerSubdirs ds)) := rfl
  obtain ⟨fs2, h2⟩ := gerar_node_form false fs (varrerSubdirs ds)
  rw [h1, h2, varrer_bottom_up, varrerSubdirs_idem_of ds ih, ← h2]
  exact gerar_idem false _

theorem varrerSubdirs_idem (ds : List (String × FsTree)) :
    varrerSubdirs (varrerSubdirs ds) = varrerSubdirs ds :=
  varrerSubdirs_idem_of ds (fun n sub _ => varrer_false_idem sub)

theorem etapa_index_idem (t : FsTree) :
    etapa_index (etapa_index t) = etapa_index t := by
  obtain ⟨fs, ds⟩ := t
  unfold etapa_index
  have h1 : varrer_bottom_up true (FsTree.node fs ds) =
      gerar_ou_remover_index true (FsTree.node fs (varrerSubdirs ds)) := rfl
  rw [h1, gerar_idem true (FsTree.node fs (varrerSubdirs ds))]
  obtain ⟨fs2, h2⟩ := gerar_node_form true fs (varrerSubdirs ds)
  rw [h2, varrer_bottom_up, varrerSubdirs_idem ds, ← h2,
      gerar_idem true, gerar_idem true]

/-! Support part 5: the listing stage changes only `index.html` files, so
root-file lookups and the collected per-package manifests are unchanged,
and re-running the aggregation stage on the final state writes back the
bytes already stored. -/

theorem lookupFile_files_gerar (b : Bool) (u : FsTree) {n : String}
    (h : n ≠ "index.html") :
    lookupFile (gerar_ou_remover_index b u).files n = lookupFile u.files n := by
  simp only [gerar_ou_remover_index]
  split
  · exact lookupFile_removeFile_ne u.files h
  · split <;> (split <;>
      first
        | exact lookupFile_removeFile_ne u.files h
        | exact lookupFile_putFile_ne u.files h _)

theorem lookupFile_files_varrer (b : Bool) (u : FsTree) {n : String}
    (h : n ≠ "index.html") :
    lookupFile (varrer_bottom_up b u).files n = lookupFile u.files n := by
  obtain ⟨fs, ds⟩ := u
  rw [varrer_bottom_up]
  exact lookupFile_files_gerar b (FsTree.node fs (varrerSubdirs ds)) h

theorem lookupFile_files_etapa_index (u : FsTree) {n : String}
    (h : n ≠ "index.html") :
    lookupFile (etapa_index u).files n = lookupFile u.files n := by
  unfold etapa_index
  rw [lookupFile_files_gerar true _ h, lookupFile_files_varrer true u h]

theorem allEq_files_gerar (b : Bool) (u : FsTree) {n : String} (d : FileData)
    (hne : n ≠ "index.html")
    (hall : ∀ p ∈ u.files, p.1 = n → p.2 = d) :
    ∀ p ∈ (gerar_ou_remover_index b u).files, p.1 = n → p.2 = d := by
  simp only [gerar_ou_remover_index]
  split
  · exact allEq_removeFile u.files "index.html" n d hall
  · split <;> (split <;>
      first
        | exact allEq_removeFile u.files "index.html" n d hall
        | exact allEq_putFile_other u.files _ d (Ne.symm hne) hall)

theorem allEq_files_varrer (b : Bool) (u : FsTree) {n : String} (d : FileData)
    (hne : n ≠ "index.html")
    (hall : ∀ p ∈ u.files, p.1 = n → p.2 = d) :
    ∀ p ∈ (varrer_bottom_up b u).files, p.1 = n → p.2 = d := by
  obtain ⟨fs, ds⟩ := u
  rw [varrer_bottom_up]
  exact allEq_files_gerar b (FsTree.node fs (varrerSubdirs ds)) d hne hall

theorem allEq_files_etapa_index (u : FsTree) {n : String} (d : FileData)
    (hne : n ≠ "index.html")
    (hall : ∀ p ∈ u.files, p.1 = n → p.2 = d) :
    ∀ p ∈ (etapa_index u).files, p.1 = n → p.2 = d :=
  allEq_files_gerar true _ d hne (allEq_files_varrer true u d hne hall)

theorem collectAddons_gerar (b : Bool) (w : FsTree) :
    collectAddons (gerar_ou_remover_index b w) = collectAddons w := by
  unfold collectAddons
  rw [dirs_gerar_ou_remover]

theorem collectAddons_varrerSubdirs (x : List (String × FileData))
    (ds : List (String × FsTree)) :
    collectAddons (FsTree.node x (varrerSubdirs ds)) =
      collectAddons (FsTree.node x ds) := by
  simp only [collectAddons, FsTree.dirs, varrerSubdirs_eq_map,
    List.filterMap_map]
  refine List.filterMap_congr ?_
  intro p hp
  obtain ⟨n, sub⟩ := p
  cases hdot : strStartsWith n "." with
  | true => simp [hdot]
  | false =>
      have hlk : lookupFile (varrer_bottom_up false sub).files "addon.xml" =
          lookupFile sub.files "addon.xml" :=
        lookupFile_files_varrer false sub (by decide)
      simp [hdot, hlk]

theorem collectAddons_etapa_index (u : FsTree) :
    collectAddons (etapa_index u) = collectAddons u := by
  obtain ⟨fs, ds⟩ := u
  unfold etapa_index
  rw [collectAddons_gerar, varrer_bottom_up, collectAddons_gerar,
      collectAddons_varrerSubdirs]

theorem gerar_addons_root_etapa_index (u : FsTree) :
    gerar_addons_root (etapa_index u) = gerar_addons_root u := by
  unfold gerar_addons_root
  rw [collectAddons_etapa_index]

theorem etapa_addons_fix (s : FsTree)
    (hX : lookupFile s.files "addons.xml" =
      some (.bytes (serializeDoc (gerar_addons_root s))))
    (hallX : ∀ p ∈ s.files, p.1 = "addons.xml" →
      p.2 = .bytes (serializeDoc (gerar_addons_root s)))
    (hallM : ∀ p ∈ s.files, p.1 = "addons.xml.md5" →
      p.2 = .bytes (md5Hex (serializeDoc (gerar_addons_root s))))
    (hpresM : (lookupFile s.files "addons.xml.md5").isSome = true) :
    etapa_addons_xml [] s = .ok s := by
  obtain ⟨fs, ds⟩ := s
  have hstep : etapa_addons_xml [] (FsTree.node fs ds) = .ok (FsTree.node
      (putFile (putFile fs "addons.xml"
          (.bytes (serializeDoc (gerar_addons_root (.node fs ds)))))
        "addons.xml.md5"
        (.bytes (md5Hex (serializeDoc (gerar_addons_root (.node fs ds))))))
      ds) := by
    simp [etapa_addons_xml, gerar_addons_xml, gerar_md5, writeFile,
      writeAtPath, Bind.bind, Except.bind, FsTree.files,
      lookupFile_putFile_self]
  rw [hstep]
  have e1 : putFile fs "addons.xml"
      (.bytes (serializeDoc (gerar_addons_root (FsTree.node fs ds)))) = fs :=
    putFile_of_allEq fs "addons.xml" _
      (by rw [any_eq_isSome_lookupFile]
          show (lookupFile (FsTree.node fs ds).files "addons.xml").isSome = true
          rw [hX]; rfl)
      hallX
  rw [e1]
  have e2 : putFile fs "addons.xml.md5"
      (.bytes (md5Hex (serializeDoc (gerar_addons_root (FsTree.node fs ds)))))
      = fs :=
    putFile_of_allEq fs "addons.xml.md5" _
      (by rw [any_eq_isSome_lookupFile]; exact hpresM)
      hallM
  rw [e2]

/-! Support part 6: after a successful ingestion run every root archive
left in place lacks a manifest entry, so re-running ingestion is a no-op. -/

theorem writeFile_nil (t : FsTree) (path : List String) (d : FileData) :
    writeFile [] t path d = .ok (writeAtPath t path d) := by
  unfold writeFile
  rw [if_neg (List.not_mem_nil path)]

theorem files_safe_mkdir (t : FsTree) (p : List String) :
    (safe_mkdir t p).files = t.files := by
  cases t with
  | node fs ds =>
      cases p with
      | nil => rfl
      | cons n rest => rfl

theorem files_writeAtPath2 (t : FsTree) (n x : String) (xs : List String)
    (d : FileData) : (writeAtPath t (n :: x :: xs) d).files = t.files := by
  cases t with | node fs ds => rfl

theorem writeAsset_ok_files (folder internal : String)
    (entries : List (String × FileData)) (t u : FsTree) (a : String)
    (h : writeAsset [] folder internal entries t a = .ok u) :
    u.files = t.files := by
  simp only [writeAsset, writeFile_nil] at h
  split at h
  · split at h
    · simp at h
    · next hne =>
        injection h with h
        rw [← h]
        cases hpl : plSegs a with
        | nil => exact absurd hpl hne
        | cons y ys =>
            rw [files_writeAtPath2, files_safe_mkdir]
  · injection h with h
    rw [← h]

theorem writeAssetsLoop_ok_files (folder internal : String)
    (entries : List (String × FileData)) :
    ∀ (assets : List String) (t u : FsTree),
    writeAssetsLoop [] folder internal entries t assets = .ok u →
    u.files = t.files := by
  intro assets
  induction assets with
  | nil =>
      intro t u h
      injection h with h
      rw [← h]
  | cons a rest ih =>
      intro t u h
      cases hw : writeAsset [] folder internal entries t a with
      | error e =>
          rw [writeAssetsLoop] at h
          simp only [hw, Bind.bind, Except.bind] at h
          exact Except.noConfusion h
      | ok t2 =>
          have h2 : writeAssetsLoop [] folder internal entries t2 rest =
              .ok u := by
            rw [writeAssetsLoop] at h
            simpa only [hw, Bind.bind, Except.bind] using h
          rw [ih t2 u h2, writeAsset_ok_files folder internal entries t t2 a hw]

theorem process_zip_ok_cases (t u : FsTree) (z : String)
    (h : process_zip [] t z = .ok u) :
    (u = t ∧ ∃ e, lookupFile t.files z = some (.zip e) ∧
      find_addon_xml (e.map Prod.fst) = none) ∨
    u.files = removeFile t.files z := by
  simp only [process_zip, writeFile_nil, Bind.bind, Except.bind] at h
  split at h
  · cases h
  · cases h
  · cases h
  · next entries heqlk =>
      split at h
      · next heqfind =>
          injection h with h
          exact Or.inl ⟨h.symm, entries, heqlk, heqfind⟩
      · next internal heqfind =>
          split at h
          · cases h
          · cases h
          · cases h
          · next root heqroot =>
              split at h
              · cases h
              · next t3 heqloop =>
                  injection h with h
                  refine Or.inr ?_
                  rw [← h, files_writeAtPath2]
                  show removeFile t3.files z = removeFile t.files z
                  have h3 : t3.files = t.files := by
                    rw [writeAssetsLoop_ok_files _ _ entries
                      (extract_asset_paths root) _ t3 heqloop,
                      files_writeAtPath2, files_safe_mkdir]
                  rw [h3]

theorem processZips_skipOnly :
    ∀ (names : List String) (t t1 : FsTree),
    processZips [] t names = .ok t1 →
    (∀ n d, (pyLower (pySuffix n) == ".zip") = true →
      lookupFile t.files n = some d →
      n ∈ names ∨ ∃ e, d = .zip e ∧
        find_addon_xml (e.map Prod.fst) = none) →
    ∀ n d, (pyLower (pySuffix n) == ".zip") = true →
      lookupFile t1.files n = some d →
      ∃ e, d = .zip e ∧ find_addon_xml (e.map Prod.fst) = none := by
  intro names
  induction names with
  | nil =>
      intro t t1 h hin n d hsuf hlk
      injection h with h
      rw [← h] at hlk
      rcases hin n d hsuf hlk with hm | hm
      · cases hm
      · exact hm
  | cons z rest ih =>
      intro t t1 h hin n d hsuf hlk
      cases hw : process_zip [] t z with
      | error e =>
          rw [processZips] at h
          simp only [hw, Bind.bind, Except.bind] at h
          exact Except.noConfusion h
      | ok u =>
          have h2 : processZips [] u rest = .ok t1 := by
            rw [processZips] at h
            simpa only [hw, Bind.bind, Except.bind] using h
          refine ih u t1 h2 ?_ n d hsuf hlk
          intro m dm hsufm hlkm
          rcases process_zip_ok_cases t u z hw with ⟨hu, e, hze, hfind⟩ | hfiles
          · rw [hu] at hlkm
            rcases hin m dm hsufm hlkm with hm | hm
            · rcases List.mem_cons.mp hm with hm1 | hm1
              · right
                rw [hm1] at hlkm
                rw [hlkm] at hze
                injection hze with hze
                exact ⟨e, hze, hfind⟩
              · exact Or.inl hm1
            · exact Or.inr hm
          · rw [hfiles] at hlkm
            by_cases hmz : m = z
            · rw [hmz, lookupFile_removeFile_self] at hlkm
              cases hlkm
            · rw [lookupFile_removeFile_ne t.files hmz] at hlkm
              rcases hin m dm hsufm hlkm with hm | hm
              · rcases List.mem_cons.mp hm with hm1 | hm1
                · exact absurd hm1 hmz
                · exact Or.inl hm1
              · exact Or.inr hm

theorem lookup_mem_zip_selection (t : FsTree) (n : String) (d : FileData)
    (hsuf : (pyLower (pySuffix n) == ".zip") = true)
    (hlk : lookupFile t.files n = some d) :
    n ∈ (t.files.filter
      (fun p => pyLower (pySuffix p.1) == ".zip")).map Prod.fst := by
  unfold lookupFile at hlk
  cases hf : t.files.find? (fun p => p.1 == n) with
  | none => rw [hf] at hlk; cases hlk
  | some q =>
      have hq := List.mem_of_find?_eq_some hf
      have hbeq := List.find?_some hf
      have hqn : q.1 = n := eq_of_beq hbeq
      refine List.mem_map.mpr ⟨q, ?_, hqn⟩
      refine List.mem_filter.mpr ⟨hq, ?_⟩
      rw [hqn]
      exact hsuf

theorem etapa1_skipOnly (t t1 : FsTree)
    (h : etapa_processar_zips [] t = .ok t1) :
    ∀ n d, (pyLower (pySuffix n) == ".zip") = true →
      lookupFile t1.files n = some d →
      ∃ e, d = .zip e ∧ find_addon_xml (e.map Prod.fst) = none := by
  refine processZips_skipOnly _ t t1 h ?_
  intro n d hsuf hlk
  exact Or.inl (lookup_mem_zip_selection t n d hsuf hlk)

theorem zipsuffix_ne (n : String)
    (h : (pyLower (pySuffix n) == ".zip") = true) :
    n ≠ "addons.xml" ∧ n ≠ "addons.xml.md5" ∧ n ≠ "index.html" := by
  refine ⟨?_, ?_, ?_⟩ <;>
    (intro he; rw [he] at h; exact absurd h (by decide))

theorem etapa1_fix (s : FsTree)
    (hskip : ∀ n d, (pyLower (pySuffix n) == ".zip") = true →
      lookupFile s.files n = some d →
      ∃ e, d = .zip e ∧ find_addon_xml (e.map Prod.fst) = none) :
    etapa_processar_zips [] s = .ok s := by
  unfold etapa_processar_zips
  have key : ∀ names : List String,
      (∀ z ∈ names, (pyLower (pySuffix z) == ".zip") = true ∧
        (lookupFile s.files z).isSome = true) →
      processZips [] s names = .ok s := by
    intro names
    induction names with
    | nil => intro _; rfl
    | cons z rest ih =>
        intro hmem
        obtain ⟨hsuf, hpres⟩ := hmem z (List.mem_cons_self ..)
        cases hlk : lookupFile s.files z with
        | none => rw [hlk] at hpres; cases hpres
        | some d =>
            obtain ⟨e, hde, hfind⟩ := hskip z d hsuf hlk
            rw [hde] at hlk
            have hpz : process_zip [] s z = .ok s := by
              simp [process_zip, hlk, hfind]
            rw [processZips]
            simp only [hpz, Bind.bind, Except.bind]
            exact ih (fun q hq => hmem q (List.mem_cons_of_mem _ hq))
  refine key _ ?_
  intro z hz
  obtain ⟨p, hp, hpz⟩ := List.mem_map.mp hz
  obtain ⟨hpf, hsuf⟩ := List.mem_filter.mp hp
  constructor
  · rw [← hpz]; exact hsuf
  · rw [← hpz, ← any_eq_isSome_lookupFile]
    exact List.any_eq_true.mpr ⟨p, hpf, by simp⟩

/-- C2: the full pipeline is idempotent — when a run with no injected
faults succeeds, its final state is a fixpoint: running all three stages
again on that state succeeds and reproduces the state byte for byte (in
particular the stored `addons.xml`, `addons.xml.md5` and every
`index.html` are identical after the second run). -/
theorem C2_pipeline_idempotent (t s : FsTree)
    (h : mainPipeline [] t = .ok s) : mainPipeline [] s = .ok s := by
  cases he1 : etapa_processar_zips [] t with
  | error e =>
      unfold mainPipeline at h
      simp only [he1, Bind.bind, Except.bind] at h
      exact Except.noConfusion h
  | ok t1 =>
      cases he2 : etapa_addons_xml [] t1 with
      | error e =>
          unfold mainPipeline at h
          simp only [he1, he2, Bind.bind, Except.bind] at h
          exact Except.noConfusion h
      | ok t2 =>
          have hs : s = etapa_index t2 := by
            unfold mainPipeline at h
            simp only [he1, he2, Bind.bind, Except.bind] at h
            injection h with h
            exact h.symm
          have hshape := etapa_addons_xml_ok_shape [] t1 t2 he2
          subst hshape
          subst hs
          have hskip1 := etapa1_skipOnly t t1 he1
          have hroot : gerar_addons_root (etapa_index (FsTree.node
              (putFile (putFile t1.files "addons.xml"
                  (.bytes (serializeDoc (gerar_addons_root t1))))
                "addons.xml.md5"
                (.bytes (md5Hex (serializeDoc (gerar_addons_root t1)))))
              t1.dirs)) = gerar_addons_root t1 := by
            rw [gerar_addons_root_etapa_index]
            rfl
          have hlkA : lookupFile (etapa_index (FsTree.node
              (putFile (putFile t1.files "addons.xml"
                  (.bytes (serializeDoc (gerar_addons_root t1))))
                "addons.xml.md5"
                (.bytes (md5Hex (serializeDoc (gerar_addons_root t1)))))
              t1.dirs)).files "addons.xml" =
              some (.bytes (serializeDoc (gerar_addons_root t1))) := by
            rw [lookupFile_files_etapa_index _ (by decide)]
            simp only [FsTree.files]
            rw [lookupFile_putFile_ne _ (by decide),
              lookupFile_putFile_self]
          have hlkM : lookupFile (etapa_index (FsTree.node
              (putFile (putFile t1.files "addons.xml"
                  (.bytes (serializeDoc (gerar_addons_root t1))))
                "addons.xml.md5"
                (.bytes (md5Hex (serializeDoc (gerar_addons_root t1)))))
              t1.dirs)).files "addons.xml.md5" =
              some (.bytes (md5Hex (serializeDoc (gerar_addons_root t1))))
              := by
            rw [lookupFile_files_etapa_index _ (by decide)]
            simp only [FsTree.files]
            rw [lookupFile_putFile_self]
          have hskipS : ∀ n d, (pyLower (pySuffix n) == ".zip") = true →
              lookupFile (etapa_index (FsTree.node
                (putFile (putFile t1.files "addons.xml"
                    (.bytes (serializeDoc (gerar_addons_root t1))))
                  "addons.xml.md5"
                  (.bytes (md5Hex (serializeDoc (gerar_addons_root t1)))))
                t1.dirs)).files n = some d →
              ∃ e, d = .zip e ∧ find_addon_xml (e.map Prod.fst) = none := by
            intro n d hsuf hlk
            obtain ⟨hne1, hne2, hne3⟩ := zipsuffix_ne n hsuf
            rw [lookupFile_files_etapa_index _ hne3] at hlk
            simp only [FsTree.files] at hlk
            rw [lookupFile_putFile_ne _ hne2,
              lookupFile_putFile_ne _ hne1] at hlk
            exact hskip1 n d hsuf hlk
          have hrun1 := etapa1_fix _ hskipS
          have ha1 : ∀ p ∈ putFile t1.files "addons.xml"
              (.bytes (serializeDoc (gerar_addons_root t1))),
              p.1 = "addons.xml" →
              p.2 = .bytes (serializeDoc (gerar_addons_root t1)) :=
            allEq_putFile_self t1.files "addons.xml" _
          have ha2 := allEq_putFile_other
            (putFile t1.files "addons.xml"
              (.bytes (serializeDoc (gerar_addons_root t1))))
            (.bytes (md5Hex (serializeDoc (gerar_addons_root t1))))
            (.bytes (serializeDoc (gerar_addons_root t1)))
            (show "addons.xml.md5" ≠ "addons.xml" by decide) ha1
          have ha3 := allEq_files_etapa_index (FsTree.node
            (putFile (putFile t1.files "addons.xml"
                (.bytes (serializeDoc (gerar_addons_root t1))))
              "addons.xml.md5"
              (.bytes (md5Hex (serializeDoc (gerar_addons_root t1)))))
            t1.dirs) (.bytes (serializeDoc (gerar_addons_root t1)))
            (show "addons.xml" ≠ "index.html" by decide) ha2
          have hm1 : ∀ p ∈ putFile (putFile t1.files "addons.xml"
              (.bytes (serializeDoc (gerar_addons_root t1))))
              "addons.xml.md5"
              (.bytes (md5Hex (serializeDoc (gerar_addons_root t1)))),
              p.1 = "addons.xml.md5" →
              p.2 = .bytes (md5Hex (serializeDoc (gerar_addons_root t1))) :=
            allEq_putFile_self _ "addons.xml.md5" _
          have hm3 := allEq_files_etapa_index (FsTree.node
            (putFile (putFile t1.files "addons.xml"
                (.bytes (serializeDoc (gerar_addons_root t1))))
              "addons.xml.md5"
              (.bytes (md5Hex (serializeDoc (gerar_addons_root t1)))))
            t1.dirs) (.bytes (md5Hex (serializeDoc (gerar_addons_root t1))))
            (show "addons.xml.md5" ≠ "index.html" by decide) hm1
          have hrun2 : etapa_addons_xml [] (etapa_index (FsTree.node
              (putFile (putFile t1.files "addons.xml"
                  (.bytes (serializeDoc (gerar_addons_root t1))))
                "addons.xml.md5"
                (.bytes (md5Hex (serializeDoc (gerar_addons_root t1)))))
              t1.dirs)) = .ok (etapa_index (FsTree.node
              (putFile (putFile t1.files "addons.xml"
                  (.bytes (serializeDoc (gerar_addons_root t1))))
                "addons.xml.md5"
                (.bytes (md5Hex (serializeDoc (gerar_addons_root t1)))))
              t1.dirs)) := by
            refine etapa_addons_fix _ ?_ ?_ ?_ ?_
            · rw [hroot]
              exact hlkA
            · rw [hroot]
              exact ha3
            · rw [hroot]
              exact hm3
            · rw [hlkM]
              rfl
          unfold mainPipeline
          simp only [hrun1, hrun2, Bind.bind, Except.bind]
          rw [etapa_index_idem]

/-- C2 witness: a concrete pipeline run on an empty repository root, whose
result is reproduced exactly by a second full run. -/
theorem C2_pipeline_idempotent_witness :
    mainPipeline [] (FsTree.node [] []) =
      .ok ((mainPipeline [] (FsTree.node [] [])).toOption.getD
        (FsTree.node [] [])) ∧
    mainPipeline [] ((mainPipeline [] (FsTree.node [] [])).toOption.getD
        (FsTree.node [] [])) =
      .ok ((mainPipeline [] (FsTree.node [] [])).toOption.getD
        (FsTree.node [] [])) :=
  ⟨by rfl, C2_pipeline_idempotent (FsTree.node [] [])
    ((mainPipeline [] (FsTree.node [] [])).toOption.getD (FsTree.node [] []))
    (by rfl)⟩

/-! ## C8 — the legacy variant against stage 1 of the pipeline

The two `process_zip` functions disagree on archives whose names confuse
the two stem conventions (`pathlib.Path.stem` versus `os.path.splitext`)
and on manifests whose asset paths resolve differently under `pathlib`
joining versus string concatenation; on ordinary inputs they coincide. -/

/-- C8 counterexample: for the archive name `..zip` (manifest without an
`id`), the pipeline's stage 1 derives package folder `.` (the
`Path.stem`), while the legacy script derives package folder `..zip`
(`os.path.splitext` assigns no extension to leading-dot names) — the two
on-disk results differ. -/
theorem C8_counterexample :
    (process_zip_fx "..zip"
        [("addon.xml", .xmlDoc (.mk "addon" [] none [] none))]).map
      (fun o => o.map (fun fx => fx.folder)) = .ok (some ".") ∧
    (genzip_process_zip_fx "..zip"
        [("addon.xml", .xmlDoc (.mk "addon" [] none [] none))]).map
      (fun o => o.map (fun fx => fx.folder)) = .ok (some "..zip") :=
  ⟨rfl, rfl⟩

/-- C8 amended: whenever the archive name has the same stem under both
conventions, and every declared asset of the found manifest resolves to
the same internal archive path under `pathlib` joining as under the
legacy string concatenation, the legacy per-archive processing produces
exactly the same effect summary as stage 1 of the pipeline: same skip
behaviour, same package folder, same manifest, same asset writes and
same canonical archive name. -/
theorem C8_amended (zname : String) (entries : List (String × FileData))
    (hstem : pyStem zname = splitextStem zname)
    (hpath : ∀ internal root asset,
      find_addon_xml (entries.map Prod.fst) = some internal →
      (entries.find? (fun p => p.1 == internal)).map Prod.snd =
        some (.xmlDoc root) →
      asset ∈ extract_asset_paths root →
      GenZip.legacyInternal internal asset = pipelineInternal internal asset) :
    genzip_process_zip_fx zname entries = process_zip_fx zname entries := by
  unfold genzip_process_zip_fx process_zip_fx
  rw [show GenZip.find_addon_xml = find_addon_xml from rfl]
  split
  · rfl
  · next internal heqf =>
      split
      · rfl
      · rfl
      · rfl
      · next root heqm =>
          have hassets : GenZip.extract_asset_paths root =
              extract_asset_paths root := rfl
          simp only [hassets, ← hstem]
          congr 3
          refine List.filterMap_congr ?_
          intro a ha
          rw [hpath internal root a heqf heqm ha]

/-- C8 amended, witness: a well-formed archive (`pkg-1.0.zip`, manifest in
folder `foo/` with one relative icon asset) is processed identically by
the two variants. -/
theorem C8_amended_witness :
    pyStem "pkg-1.0.zip" = splitextStem "pkg-1.0.zip" ∧
    genzip_process_zip_fx "pkg-1.0.zip"
      [("foo/addon.xml", .xmlDoc (.mk "addon"
          [("id", "pkg"), ("version", "1.0")] none
          [.mk "icon" [] (some "icon.png") [] none] none)),
       ("foo/icon.png", .bytes "img")] =
    process_zip_fx "pkg-1.0.zip"
      [("foo/addon.xml", .xmlDoc (.mk "addon"
          [("id", "pkg"), ("version", "1.0")] none
          [.mk "icon" [] (some "icon.png") [] none] none)),
       ("foo/icon.png", .bytes "img")] := by
  refine ⟨rfl, C8_amended "pkg-1.0.zip" _ rfl ?_⟩
  intro internal root asset hf hm ha
  injection hf with hf
  subst hf
  injection hm with hm
  injection hm with hm
  subst hm
  have hev : extract_asset_paths (XmlElem.mk "addon"
      [("id", "pkg"), ("version", "1.0")] none
      [XmlElem.mk "icon" [] (some "icon.png") [] none] none) =
      ["icon.png"] := rfl
  rw [hev] at ha
  have ha2 : asset = "icon.png" := List.mem_singleton.mp ha
  subst ha2
  rfl

end OneRepo
